import Mathlib

/-!
Verification of the notion4ever content-structuring and rich-text rendering
pipeline (src/notion4ever/structuring.py and src/notion4ever/markdown_parser.py),
as a shallow embedding in Lean 4.

Python strings are modelled as Lean `String` (a wrapper around `List Char`);
the Python string primitives used by the source (`str.replace`, `in`,
`str.splitlines`, `str.lstrip`, `str.startswith`, `str.rstrip`) are embedded
below with Python semantics.  Mutation of the shared site model is embedded as
explicit state passing.  Fallible code paths (Python exceptions) are embedded
as `Option`/`Except` results.
-/

namespace Notion4Ever

/-- Python `s.replace(pat, rep)` on character lists, for a nonempty pattern
`p :: ps`: replace every leftmost non-overlapping occurrence.  The fuel
argument (instantiated with the length of the scanned list, which the
recursion never exceeds) keeps the recursion structural. -/
def pyRepFuel (p : Char) (ps rep : List Char) : Nat → List Char → List Char
  | _, [] => []
  | 0, s => s
  | n + 1, c :: s =>
    if (p :: ps).isPrefixOf (c :: s) then rep ++ pyRepFuel p ps rep n (s.drop ps.length)
    else c :: pyRepFuel p ps rep n s

/-- Python `s.replace(pat, rep)`.  For the empty pattern Python inserts `rep`
before every character and at the end. -/
def pyReplace (s pat rep : String) : String :=
  match pat.data with
  | [] => ⟨rep.data ++ s.data.foldr (fun c acc => c :: (rep.data ++ acc)) []⟩
  | p :: ps => ⟨pyRepFuel p ps rep.data s.data.length s.data⟩

/-- Python `s.split(pat)` on character lists, for a nonempty pattern:
the chunks between leftmost non-overlapping occurrences, with the same fuel
convention as `pyRepFuel`. -/
def pySplitFuel (p : Char) (ps : List Char) : Nat → List Char → List (List Char)
  | _, [] => [[]]
  | 0, s => [s]
  | n + 1, c :: s =>
    if (p :: ps).isPrefixOf (c :: s) then [] :: pySplitFuel p ps n (s.drop ps.length)
    else
      match pySplitFuel p ps n s with
      | [] => [[c]]
      | h :: t => (c :: h) :: t

/-- Python `pat in s` on character lists. -/
def pyInAux (pat : List Char) : List Char → Bool
  | [] => pat.isEmpty
  | c :: s => pat.isPrefixOf (c :: s) || pyInAux pat s

/-- Python substring containment `pat in s`. -/
def pyIn (pat s : String) : Bool := pyInAux pat.data s.data

/-- Python `s.splitlines()` on character lists, for the line boundaries
actually occurring in this code base (LF, CR, CRLF; Python also splits on
rarer boundaries such as form feed).  A trailing line terminator does not
produce a final empty line. -/
def pySplitlinesL : List Char → List (List Char)
  | [] => []
  | [c] => if c = '\n' ∨ c = '\r' then [[]] else [[c]]
  | c :: c₂ :: s =>
    if c = '\n' then [] :: pySplitlinesL (c₂ :: s)
    else if c = '\r' then
      if c₂ = '\n' then [] :: pySplitlinesL s
      else [] :: pySplitlinesL (c₂ :: s)
    else
      match pySplitlinesL (c₂ :: s) with
      | [] => [[c]]
      | h :: t => (c :: h) :: t

/-- Python `"\n".join(lines)` on character lists. -/
def pyJoinNl : List (List Char) → List Char
  | [] => []
  | [l] => l
  | l :: l₂ :: ls => l ++ '\n' :: pyJoinNl (l₂ :: ls)

/-! ## markdown_parser.grouping (source lines 345-367) -/

/-- The line classification of `grouping`: strip leading tabs then leading
whitespace, then test the leading token.  Returns the `line_type` string of
the source (`"checkbox"`, `"bullet"`, `"numbered"` or `""`). -/
def lineType (line : List Char) : String :=
  let norm := (line.dropWhile (· == '\t')).dropWhile Char.isWhitespace
  if ("- [ ]".data.isPrefixOf norm || "- [x]".data.isPrefixOf norm) then "checkbox"
  else if "* ".data.isPrefixOf norm then "bullet"
  else if "1. ".data.isPrefixOf norm then "numbered"
  else ""

/-- The loop body of `grouping`, over the list of lines, threading
`prev_line_type`.  A blank line following a line of nonempty type is dropped
(`continue`, which also leaves `prev_line_type` unchanged); a transition
between line types inserts an empty line before the current line. -/
def groupingLines (prev : String) : List (List Char) → List (List Char)
  | [] => []
  | line :: rest =>
    let lt := lineType line
    if prev ≠ "" ∧ line.isEmpty then groupingLines prev rest
    else if lt ≠ prev then [] :: line :: groupingLines lt rest
    else line :: groupingLines lt rest

/-- `markdown_parser.grouping`: split into lines, normalize blank-line
grouping around list-class lines, join with newlines. -/
def grouping (page_md : String) : String :=
  ⟨pyJoinNl (groupingLines "" (pySplitlinesL page_md.data))⟩

theorem grouping_example : grouping "* a" = "\n* a" := by decide

theorem grouping_twice_example : grouping (grouping "* a") = "\n\n* a" := by decide

theorem pySplitlinesL_ne_nil (c : Char) (s : List Char) : pySplitlinesL (c :: s) ≠ [] := by
  cases s with
  | nil =>
    simp only [pySplitlinesL]
    split <;> exact List.cons_ne_nil _ _
  | cons c₂ s₂ =>
    simp only [pySplitlinesL]
    split
    · exact List.cons_ne_nil _ _
    · split
      · split <;> exact List.cons_ne_nil _ _
      · split <;> exact List.cons_ne_nil _ _

theorem pyJoinNl_consHead (c : Char) (h : List Char) (t : List (List Char)) :
    pyJoinNl ((c :: h) :: t) = c :: pyJoinNl (h :: t) := by
  cases t <;> simp [pyJoinNl]

/-- Joining the split lines recovers the string, provided the string has no
carriage returns and does not end in a newline. -/
theorem pyJoinNl_pySplitlinesL :
    ∀ d : List Char, '\r' ∉ d → d.getLast? ≠ some '\n' →
      pyJoinNl (pySplitlinesL d) = d := by
  intro d
  induction d with
  | nil => intro _ _; rfl
  | cons c s ih =>
    intro hr hl
    have hcr : c ≠ '\r' := fun h => hr (h ▸ List.mem_cons_self c s)
    have hr₂ : '\r' ∉ s := fun h => hr (List.mem_cons_of_mem _ h)
    cases s with
    | nil =>
      have hc : c ≠ '\n' := by
        intro h
        exact hl (by simp [h, List.getLast?])
      simp [pySplitlinesL, hc, hcr, pyJoinNl]
    | cons c₂ s₂ =>
      have hl₂ : (c₂ :: s₂).getLast? ≠ some '\n' := by
        rwa [List.getLast?_cons_cons] at hl
      have ihs := ih hr₂ hl₂
      obtain ⟨h, t, heq⟩ : ∃ h t, pySplitlinesL (c₂ :: s₂) = h :: t := by
        cases hq : pySplitlinesL (c₂ :: s₂) with
        | nil => exact absurd hq (pySplitlinesL_ne_nil _ _)
        | cons h t => exact ⟨h, t, rfl⟩
      by_cases hc : c = '\n'
      · subst hc
        simp only [pySplitlinesL, if_pos rfl, heq]
        rw [heq] at ihs
        simpa [pyJoinNl] using ihs
      · simp only [pySplitlinesL, if_neg hc, if_neg hcr, heq]
        rw [heq] at ihs
        rw [pyJoinNl_consHead, ihs]

/-- On lines that all classify as plain (`line_type = ""`), the grouping loop
is the identity: no blank line is ever skipped or inserted. -/
theorem groupingLines_id (lines : List (List Char)) (h : ∀ l ∈ lines, lineType l = "") :
    groupingLines "" lines = lines := by
  induction lines with
  | nil => rfl
  | cons line rest ih =>
    have h₁ : lineType line = "" := h line (List.mem_cons_self _ _)
    have h₂ : ∀ l ∈ rest, lineType l = "" := fun l hl => h l (List.mem_cons_of_mem _ hl)
    simp [groupingLines, h₁, ih h₂]

/-- Claim C3 (counterexample): the grouping post-pass is not idempotent.  On
the input consisting of the single bullet line, one application inserts one
leading blank line, a second application inserts another: the inserted blank
line is kept (the skip rule only fires after a line of nonempty type) and the
transition to the bullet line inserts a fresh blank line. -/
theorem c3_grouping_counterexample : grouping (grouping "* a") ≠ grouping "* a" := by decide

/-- Claim C3 (amended): the grouping post-pass is idempotent on strings that
contain no checkbox, bullet or numbered lines, no carriage returns, and do not
end in a newline; on such strings it is the identity.  It is not idempotent in
general (see the counterexample). -/
theorem c3_grouping_idempotent_on_plain (s : String)
    (hty : ∀ l ∈ pySplitlinesL s.data, lineType l = "")
    (hr : '\r' ∉ s.data) (hnl : s.data.getLast? ≠ some '\n') :
    grouping s = s ∧ grouping (grouping s) = grouping s := by
  obtain ⟨d⟩ := s
  have hid : grouping ⟨d⟩ = ⟨d⟩ := by
    show (⟨pyJoinNl (groupingLines "" (pySplitlinesL d))⟩ : String) = ⟨d⟩
    rw [groupingLines_id _ hty, pyJoinNl_pySplitlinesL d hr hnl]
  exact ⟨hid, by rw [hid]; exact hid⟩

theorem c3_grouping_witness :
    (∀ l ∈ pySplitlinesL ("hello\nworld" : String).data, lineType l = "") ∧
      grouping (grouping "hello\nworld") = grouping "hello\nworld" :=
  ⟨by decide,
   (c3_grouping_idempotent_on_plain "hello\nworld" (by decide) (by decide) (by decide)).2⟩

/-! ## markdown_parser rich-text renderer (source lines 243-343) -/

/-- A single quote character, used by the color wrapper markup. -/
def sq : String := ⟨[Char.ofNat 39]⟩

/-- Python truthiness of an optional string (None and the empty string are
falsy). -/
def truthyStr : Option String → Bool
  | none => false
  | some u => !(u == "")

/-- The `annotations` object of a rich-text span. -/
structure RTAnnotations where
  bold : Bool
  italic : Bool
  strikethrough : Bool
  underline : Bool
  code : Bool
  color : String
deriving DecidableEq

/-- The `text` object of a rich-text span: its content and the url of its
`link` object when one is present. -/
structure RTText where
  content : String
  link : Option String
deriving DecidableEq

/-- One rich-text span, with the fields read by the converter.  `rtype` is the
`type` discriminator (`"text"`, `"equation"` or `"mention"`); `mention_type`
is read only on mention spans. -/
structure RichTextSpan where
  rtype : String
  plain_text : String
  href : Option String
  text : RTText
  annotations : RTAnnotations
  mention_type : String
deriving DecidableEq

namespace MdRich

/-- `markdown_parser.text_link`.  The source reads `item["link"]["url"]`,
which presupposes a link object; a missing link is totalized to `""` (Python
would raise there, and the converter only calls this when `href` is truthy,
in which case the link object is present in API data). -/
def text_link (item : RTText) : String :=
  "[" ++ item.content ++ "](" ++ item.link.getD "" ++ ")"

def bold (content : String) : String := "**" ++ content ++ "**"

def italic (content : String) : String := "*" ++ content ++ "*"

def strikethrough (content : String) : String := "~~" ++ content ++ "~~"

def underline (content : String) : String := "<u>" ++ content ++ "</u>"

def code (content : String) : String := "`" ++ content ++ "`"

def color (content : String) (c : String) : String :=
  "<span style=" ++ sq ++ "color:" ++ c ++ sq ++ ">" ++ content ++ "</span>"

def equation (content : String) : String := "$ " ++ content ++ " $"

/-- The keys of `annotation_map` in their Python dict insertion order, with
their wrapper functions. -/
def annotationMap : List (String × (String → String)) :=
  [("bold", bold), ("italic", italic), ("strikethrough", strikethrough),
   ("underline", underline), ("code", code)]

/-- Reading `richtext["annotations"][key]` for the keys of `annotation_map`. -/
def annotGet (a : RTAnnotations) (key : String) : Bool :=
  if key == "bold" then a.bold
  else if key == "italic" then a.italic
  else if key == "strikethrough" then a.strikethrough
  else if key == "underline" then a.underline
  else if key == "code" then a.code
  else false

/-- `markdown_parser._mention_link` (the bracket asymmetry is the source's). -/
def mention_link (content url : String) : String :=
  "([" ++ content ++ "](" ++ url ++ "])"

/-- The information dict built by `mention_information`. -/
structure MentionInformation where
  url : Option String
  content : String

def user (information : MentionInformation) : String :=
  "(" ++ information.content ++ ")"

def page (information : MentionInformation) : String :=
  mention_link information.content (information.url.getD "")

def date (information : MentionInformation) : String :=
  "(" ++ information.content ++ ")"

def database (information : MentionInformation) : String :=
  mention_link information.content (information.url.getD "")

/-- `markdown_parser.mention_information`. -/
def mention_information (payload : RichTextSpan) : MentionInformation :=
  if truthyStr payload.href then
    { url := payload.href,
      content :=
        if payload.plain_text ≠ "Untitled" then payload.plain_text
        else payload.href.getD "" }
  else { url := none, content := payload.plain_text }

/-- Dispatch over `mention_map`; an unknown mention type leaves the outcome
word `""` as in the source. -/
def mentionConvert (mention_type : String) (info : MentionInformation) : String :=
  if mention_type == "user" then user info
  else if mention_type == "page" then page info
  else if mention_type == "database" then database info
  else if mention_type == "date" then date info
  else ""

/-- `markdown_parser.richtext_word_converter`. -/
def richtext_word_converter (richtext : RichTextSpan) : String :=
  if richtext.rtype == "equation" then equation richtext.plain_text
  else if richtext.rtype == "mention" then
    mentionConvert richtext.mention_type (mention_information richtext)
  else
    let base := if truthyStr richtext.href then text_link richtext.text else richtext.plain_text
    let w := annotationMap.foldl
      (fun w kf => if annotGet richtext.annotations kf.1 then kf.2 w else w) base
    if richtext.annotations.color ≠ "default" then color w richtext.annotations.color else w

/-- `markdown_parser.richtext_convertor`: concatenation of the per-span
renderings in original order. -/
def richtext_convertor (richtext_list : List RichTextSpan) : String :=
  richtext_list.foldl (fun acc r => acc ++ richtext_word_converter r) ""

end MdRich

/-- Claim C4 (confirmed): for every span that is neither an equation nor a
mention, the renderer wraps the plain text in a link first when a hyperlink
target exists, then applies the active annotations in the fixed order bold,
italic, strikethrough, underline, code, each wrapping the previous result,
and applies color wrapping last when the color is not `"default"` — the order
is fixed by the iteration order of `annotation_map` and does not depend on
the input. -/
theorem c4_richtext_annotation_order (r : RichTextSpan)
    (h₁ : r.rtype ≠ "equation") (h₂ : r.rtype ≠ "mention") :
    MdRich.richtext_word_converter r =
      (let base := if truthyStr r.href then MdRich.text_link r.text else r.plain_text
       let w₁ := if r.annotations.bold then MdRich.bold base else base
       let w₂ := if r.annotations.italic then MdRich.italic w₁ else w₁
       let w₃ := if r.annotations.strikethrough then MdRich.strikethrough w₂ else w₂
       let w₄ := if r.annotations.underline then MdRich.underline w₃ else w₃
       let w₅ := if r.annotations.code then MdRich.code w₄ else w₄
       if r.annotations.color ≠ "default" then MdRich.color w₅ r.annotations.color else w₅) := by
  have e₁ : (r.rtype == "equation") = false := by simp [h₁]
  have e₂ : (r.rtype == "mention") = false := by simp [h₂]
  simp only [MdRich.richtext_word_converter, e₁, e₂, Bool.false_eq_true, if_false,
    MdRich.annotationMap, List.foldl_cons, List.foldl_nil, MdRich.annotGet]
  rfl

theorem c4_richtext_annotation_order_witness :
    (({ rtype := "text", plain_text := "hi", href := some "https://x",
        text := { content := "hi", link := some "https://x" },
        annotations :=
          { bold := true, italic := true, strikethrough := false, underline := false,
            code := true, color := "red" },
        mention_type := "" } : RichTextSpan).rtype ≠ "equation") ∧
      MdRich.richtext_word_converter
          { rtype := "text", plain_text := "hi", href := some "https://x",
            text := { content := "hi", link := some "https://x" },
            annotations :=
              { bold := true, italic := true, strikethrough := false, underline := false,
                code := true, color := "red" },
            mention_type := "" } =
        MdRich.color (MdRich.code (MdRich.italic (MdRich.bold
          (MdRich.text_link { content := "hi", link := some "https://x" })))) "red" :=
  ⟨by decide,
   by
    rw [c4_richtext_annotation_order _ (by decide) (by decide)]
    decide⟩

/-! ## structuring.recursive_search (source lines 12-32) and the DatabaseEntry
title extraction of structuring.parse_headers (source lines 125-132) -/

/-- JSON-like values, the shape of raw Notion data. -/
inductive JVal where
  | str (s : String)
  | num (n : Int)
  | bool (b : Bool)
  | null
  | arr (elems : List JVal)
  | obj (fields : List (String × JVal))

/-- Python exception classes raised by the embedded code paths. -/
inductive PyErr where
  | indexError
  | typeError
  | keyError
deriving DecidableEq

mutual

/-- `structuring.recursive_search`: yields, in generator order, every value
found under `key` anywhere in the nested dictionaries and lists of the
argument.  A non-dict argument yields nothing. -/
def recursive_search (key : String) : JVal → List JVal
  | .obj fields => searchFields key fields
  | _ => []

/-- The `for k, v in dictionary.items()` loop of `recursive_search`: for each
field, first yield the value when the key matches, then descend into dict
values, and into each element of list values. -/
def searchFields (key : String) : List (String × JVal) → List JVal
  | [] => []
  | (k, v) :: rest =>
    (if k == key then [v] else []) ++ searchInValue key v ++ searchFields key rest

/-- Descent into one field value: recurse into dicts; for lists, run
`recursive_search` on each element. -/
def searchInValue (key : String) : JVal → List JVal
  | .obj fields => searchFields key fields
  | .arr elems => searchElems key elems
  | _ => []

/-- The `for d in v` loop over a list value. -/
def searchElems (key : String) : List JVal → List JVal
  | [] => []
  | v :: rest => recursive_search key v ++ searchElems key rest

end

/-- The DatabaseEntry title branch of `structuring.parse_headers`:
`res = list(recursive_search("title", page["properties"]))[0]`, then
`res[0]["plain_text"]` when `len(res) > 0`, else a null title plus a logged
warning.  The result is `(title, warned)`; Python exceptions are `.error`.
An empty search result list makes `list(res)[0]` raise `IndexError`.  A first
search result that is not a list (which does not occur in API data, where the
value under a `"title"` key is a rich-text array) is mapped to `typeError`. -/
def parse_db_entry_title (properties : JVal) : Except PyErr (Option JVal × Bool) :=
  match recursive_search "title" properties with
  | [] => .error .indexError
  | v :: _ =>
    match v with
    | .arr [] => .ok (none, true)
    | .arr (e :: _) =>
      match e with
      | .obj fields =>
        match fields.lookup "plain_text" with
        | some t => .ok (some t, false)
        | none => .error .keyError
      | _ => .error .typeError
    | _ => .error .typeError

/-- Claim C8 (counterexample): a DatabaseEntry whose property bag contains no
`"title"` key at all makes the Header Parser raise an IndexError at
`list(res)[0]` — it does not warn and proceed with a null title. -/
theorem c8_title_counterexample :
    parse_db_entry_title
        (JVal.obj [("Tags", JVal.obj [("type", JVal.str "multi_select")])]) =
      .error .indexError := rfl

/-- Claim C8 (amended): when the recursive title search finds a first result
that is an empty rich-text list, the Header Parser logs a warning and
proceeds with a null title without raising; but when the search finds no
`"title"` key at all, the indexing `list(res)[0]` raises an IndexError. -/
theorem c8_title_handling (properties : JVal) :
    (∀ l, recursive_search "title" properties = JVal.arr [] :: l →
        parse_db_entry_title properties = .ok (none, true)) ∧
      (recursive_search "title" properties = [] →
        parse_db_entry_title properties = .error .indexError) := by
  constructor
  · intro l h
    simp [parse_db_entry_title, h]
  · intro h
    simp [parse_db_entry_title, h]

theorem c8_title_handling_witness :
    recursive_search "title"
        (JVal.obj [("Name", JVal.obj [("type", JVal.str "title"), ("title", JVal.arr [])])]) =
        [JVal.arr []] ∧
      parse_db_entry_title
          (JVal.obj [("Name", JVal.obj [("type", JVal.str "title"), ("title", JVal.arr [])])]) =
        .ok (none, true) :=
  ⟨rfl,
   (c8_title_handling
       (JVal.obj [("Name", JVal.obj [("type", JVal.str "title"), ("title", JVal.arr [])])])).1
     [] rfl⟩

/-! ## Python `sorted` as a stable insertion sort

Python `sorted(xs, key=k)` is a stable sort: the result is the unique
permutation of `xs` that is sorted by `k` and keeps elements with equal keys
in their original relative order, so it is faithfully embedded by insertion
sort with a non-strict comparison. -/

/-- Insert `x` before the first element `y` with `le x y`; for key-based `le`
this places `x` before all later elements of equal key, preserving
stability. -/
def insertStable (le : α → α → Bool) (x : α) : List α → List α
  | [] => [x]
  | y :: ys => if le x y then x :: y :: ys else y :: insertStable le x ys

/-- Stable sort by a non-strict comparison: the embedding of Python
`sorted`. -/
def pySorted (le : α → α → Bool) : List α → List α
  | [] => []
  | x :: xs => insertStable le x (pySorted le xs)

theorem insertStable_perm (le : α → α → Bool) (x : α) :
    ∀ l : List α, (insertStable le x l).Perm (x :: l) := by
  intro l
  induction l with
  | nil => exact List.Perm.refl _
  | cons y ys ih =>
    simp only [insertStable]
    split
    · exact List.Perm.refl _
    · exact (List.Perm.cons y ih).trans (List.Perm.swap x y ys)

theorem pySorted_perm (le : α → α → Bool) :
    ∀ l : List α, (pySorted le l).Perm l := by
  intro l
  induction l with
  | nil => exact List.Perm.refl _
  | cons x xs ih =>
    exact (insertStable_perm le x (pySorted le xs)).trans (List.Perm.cons x ih)

theorem insertStable_pairwise (le : α → α → Bool)
    (htot : ∀ a b, le a b || le b a) (htrans : ∀ a b c, le a b → le b c → le a c)
    (x : α) :
    ∀ l : List α, l.Pairwise (fun a b => le a b = true) →
      (insertStable le x l).Pairwise (fun a b => le a b = true) := by
  intro l
  induction l with
  | nil => intro _; simp [insertStable]
  | cons y ys ih =>
    intro hl
    rw [List.pairwise_cons] at hl
    obtain ⟨hy, hys⟩ := hl
    simp only [insertStable]
    split
    · rename_i hxy
      rw [List.pairwise_cons]
      refine ⟨?_, List.pairwise_cons.mpr ⟨hy, hys⟩⟩
      intro b hb
      rcases List.mem_cons.mp hb with rfl | hb
      · exact hxy
      · exact htrans x y b hxy (hy b hb)
    · rename_i hxy
      have hyx : le y x := by
        cases hor : le x y || le y x with
        | true =>
          rcases Bool.or_eq_true_iff.mp hor with h | h
          · exact absurd h hxy
          · exact h
        | false => exact absurd (htot x y) (by simp [hor])
      rw [List.pairwise_cons]
      refine ⟨?_, ih hys⟩
      intro b hb
      have hb' := (insertStable_perm le x ys).mem_iff.mp hb
      rcases List.mem_cons.mp hb' with rfl | hb''
      · exact hyx
      · exact hy b hb''

theorem pySorted_pairwise (le : α → α → Bool)
    (htot : ∀ a b, le a b || le b a) (htrans : ∀ a b c, le a b → le b c → le a c) :
    ∀ l : List α, (pySorted le l).Pairwise (fun a b => le a b = true) := by
  intro l
  induction l with
  | nil => simp [pySorted]
  | cons x xs ih => exact insertStable_pairwise le htot htrans x _ ih

theorem filter_insertStable_pos (le : α → α → Bool) (p : α → Bool) (x : α)
    (hpx : p x = true) (hle : ∀ y, p y = true → le x y = true) :
    ∀ l : List α, (insertStable le x l).filter p = x :: l.filter p := by
  intro l
  induction l with
  | nil => simp [insertStable, hpx]
  | cons y ys ih =>
    simp only [insertStable]
    split
    · simp [List.filter_cons, hpx]
    · rename_i hxy
      have hpy : p y = false := by
        cases hq : p y with
        | true => exact absurd (hle y hq) hxy
        | false => rfl
      simp [List.filter_cons, hpy, ih]

theorem filter_insertStable_neg (le : α → α → Bool) (p : α → Bool) (x : α)
    (hpx : p x = false) :
    ∀ l : List α, (insertStable le x l).filter p = l.filter p := by
  intro l
  induction l with
  | nil => simp [insertStable, hpx]
  | cons y ys ih =>
    simp only [insertStable]
    split
    · simp [List.filter_cons, hpx]
    · simp [List.filter_cons, ih]

/-- Stability of the embedded Python sort: elements that agree on the class
`p` — in particular, elements of one equal sort key — appear in the output in
their original relative order. -/
theorem pySorted_stable (le : α → α → Bool) (p : α → Bool)
    (hp : ∀ a b, p a = true → p b = true → le a b = true) :
    ∀ l : List α, (pySorted le l).filter p = l.filter p := by
  intro l
  induction l with
  | nil => rfl
  | cons x xs ih =>
    cases hpx : p x with
    | true =>
      rw [pySorted, filter_insertStable_pos le p x hpx (fun y hy => hp x y hpx hy), ih,
        List.filter_cons, hpx]
      simp
    | false =>
      rw [pySorted, filter_insertStable_neg le p x hpx, ih, List.filter_cons, hpx]
      simp

/-! ## dateutil.parser.isoparse and Python datetime comparison

`structuring.py` parses date strings with `dateutil.parser.isoparse` and then
compares / reads fields of the resulting `datetime` objects.  The model below
covers the ISO-8601 shapes produced by the Notion API (`YYYY-MM-DD`,
optionally `THH:MM:SS`, an optional millisecond fraction, and an optional
`Z` or `±HH:MM` offset).  A naive/naive comparison in Python is lexicographic
on the field tuple; an aware/aware comparison compares UTC instants (a mixed
comparison raises, which the hypotheses of the theorems below exclude). -/

/-- Python `datetime` value as produced by `isoparse`: calendar fields plus
an optional UTC offset in minutes.  `offset = none` is a naive datetime. -/
structure PyDateTime where
  year : Nat
  month : Nat
  day : Nat
  hour : Nat
  minute : Nat
  second : Nat
  millis : Nat
  offset : Option Int
deriving DecidableEq

def digVal (c : Char) : Option Nat :=
  if c.isDigit then some (c.toNat - 48) else none

def parseNDigits : Nat → Nat → List Char → Option (Nat × List Char)
  | 0, acc, s => some (acc, s)
  | n + 1, acc, s =>
    match s with
    | [] => none
    | c :: r =>
      match digVal c with
      | some d => parseNDigits n (acc * 10 + d) r
      | none => none

def expectChar (c : Char) : List Char → Option (List Char)
  | [] => none
  | x :: r => if x = c then some r else none

/-- Trailing UTC-offset designator: nothing (naive), `Z`, or `±HH:MM`. -/
def parseOffsetMinutes : List Char → Option (Option Int)
  | [] => some none
  | ['Z'] => some (some 0)
  | '+' :: r => do
    let (h, r) ← parseNDigits 2 0 r
    let r ← expectChar ':' r
    let (mi, r) ← parseNDigits 2 0 r
    if r = [] ∧ h ≤ 23 ∧ mi ≤ 59 then some (some ((h : Int) * 60 + mi)) else none
  | '-' :: r => do
    let (h, r) ← parseNDigits 2 0 r
    let r ← expectChar ':' r
    let (mi, r) ← parseNDigits 2 0 r
    if r = [] ∧ h ≤ 23 ∧ mi ≤ 59 then some (some (-((h : Int) * 60 + mi))) else none
  | _ => none

/-- The `THH:MM:SS[.mmm][offset]` tail of an ISO timestamp, given the
already-parsed and range-checked calendar fields. -/
def isoTimeL (y mo d : Nat) (s : List Char) : Option PyDateTime :=
  match parseNDigits 2 0 s with
  | none => none
  | some (hh, r₀) =>
    match expectChar ':' r₀ with
    | none => none
    | some r₁ =>
      match parseNDigits 2 0 r₁ with
      | none => none
      | some (mi, r₂) =>
        match expectChar ':' r₂ with
        | none => none
        | some r₃ =>
          match parseNDigits 2 0 r₃ with
          | none => none
          | some (ss, r₄) =>
            match (match r₄ with | '.' :: r₅ => parseNDigits 3 0 r₅ | _ => some (0, r₄)) with
            | none => none
            | some (ms, r₆) =>
              match parseOffsetMinutes r₆ with
              | none => none
              | some off =>
                if hh ≤ 23 ∧ mi ≤ 59 ∧ ss ≤ 59 ∧ ms ≤ 999 then
                  some ⟨y, mo, d, hh, mi, ss, ms, off⟩
                else none

/-- `dateutil.parser.isoparse` on the ISO shapes produced by the Notion API.
Field ranges are validated (month 1-12, day 1-31, hour ≤ 23, minute and
second ≤ 59); per-month day counts are not re-checked. -/
def isoparseL (s : List Char) : Option PyDateTime :=
  match parseNDigits 4 0 s with
  | none => none
  | some (y, r₀) =>
    match expectChar '-' r₀ with
    | none => none
    | some r₁ =>
      match parseNDigits 2 0 r₁ with
      | none => none
      | some (mo, r₂) =>
        match expectChar '-' r₂ with
        | none => none
        | some r₃ =>
          match parseNDigits 2 0 r₃ with
          | none => none
          | some (d, r₄) =>
            if 1 ≤ mo ∧ mo ≤ 12 ∧ 1 ≤ d ∧ d ≤ 31 then
              match r₄ with
              | [] => some ⟨y, mo, d, 0, 0, 0, 0, none⟩
              | 'T' :: r₅ => isoTimeL y mo d r₅
              | _ => none
            else none

def isoparse (s : String) : Option PyDateTime := isoparseL s.data

/-- Strictly monotone encoding of the field tuple of a (range-valid) naive
datetime; Python compares naive datetimes lexicographically on their field
tuples. -/
def naiveKey (d : PyDateTime) : Nat :=
  (((((d.year * 13 + d.month) * 32 + d.day) * 24 + d.hour) * 60 + d.minute) * 60 + d.second)
      * 1000 + d.millis

/-- Days since 1970-01-01 of a civil date (Howard Hinnant's `days_from_civil`,
the standard algorithm, with C-style truncated integer division). -/
def daysFromCivil (y m d : Int) : Int :=
  let y := if m ≤ 2 then y - 1 else y
  let era := (if 0 ≤ y then y else y - 399) / 400
  let yoe := y - era * 400
  let mp := (m + 9) % 12
  let doy := (153 * mp + 2) / 5 + d - 1
  let doe := yoe * 365 + yoe / 4 - yoe / 100 + doy
  era * 146097 + doe - 719468

/-- UTC instant of an aware datetime in milliseconds since the epoch (for a
naive datetime: the instant of its fields read as UTC). -/
def instantMillis (dt : PyDateTime) : Int :=
  (daysFromCivil dt.year dt.month dt.day * 86400
      + ((dt.hour * 3600 + dt.minute * 60 + dt.second : Nat) : Int)) * 1000
    + (dt.millis : Int) - dt.offset.getD 0 * 60000

/-- Python `datetime` non-strict comparison: field-lexicographic for two
naive values, instant-based for aware values (Python raises on a mixed
comparison; the mixed case is modelled instant-based and excluded by the
hypotheses of every theorem that uses it). -/
def pyDtLeB (a b : PyDateTime) : Bool :=
  match a.offset, b.offset with
  | none, none => decide (naiveKey a ≤ naiveKey b)
  | _, _ => decide (instantMillis a ≤ instantMillis b)

/-- Python `datetime` strict comparison, same conventions as `pyDtLeB`. -/
def pyDtLtB (a b : PyDateTime) : Bool :=
  match a.offset, b.offset with
  | none, none => decide (naiveKey a < naiveKey b)
  | _, _ => decide (instantMillis a < instantMillis b)

/-! ## structuring.sorting_db_entries (source lines 461-468) -/

/-- The fields of one structured page read or written by the Ordering Pass. -/
structure SPage where
  ptype : String
  children : List String
  date : Option String
deriving DecidableEq

/-- The `pages` map, in insertion order. -/
abbrev SiteMap := List (String × SPage)

/-- Reading `structured_notion["pages"][child]["date"]`, the sort key of
`sorting_db_entries`; `none` is a Python `KeyError` (absent child page or
absent `date` field). -/
def childDateKey (m : SiteMap) (child : String) : Option String :=
  match m.lookup child with
  | some p => p.date
  | none => none

theorem char_eq_of_toNat_eq {a b : Char} (h : a.toNat = b.toNat) : a = b :=
  Char.ext (UInt32.toNat.inj h)

/-- Python strict lexicographic comparison of strings by code points, on
character lists. -/
def listLtB : List Char → List Char → Bool
  | [], [] => false
  | [], _ :: _ => true
  | _ :: _, [] => false
  | a :: as, b :: bs =>
    if a = b then listLtB as bs else decide (a.toNat < b.toNat)

/-- Python `a <= b` on strings: not `b < a`. -/
def strLeB (a b : String) : Bool := !(listLtB b.data a.data)

theorem listLtB_irrefl : ∀ x, listLtB x x = false := by
  intro x
  induction x with
  | nil => rfl
  | cons a as ih => simp [listLtB, ih]

theorem listLtB_asymm : ∀ x y, listLtB x y = true → listLtB y x = false := by
  intro x
  induction x with
  | nil =>
    intro y h
    cases y with
    | nil => simp [listLtB] at h
    | cons c cs => rfl
  | cons a as ih =>
    intro y h
    cases y with
    | nil => simp [listLtB] at h
    | cons b bs =>
      by_cases hab : a = b
      · subst hab
        simp only [listLtB, if_pos rfl] at h ⊢
        exact ih bs h
      · have hba : b ≠ a := fun q => hab q.symm
        simp only [listLtB, if_neg hab, decide_eq_true_eq] at h
        simp only [listLtB, if_neg hba, decide_eq_false_iff_not]
        omega

theorem listLtB_conn : ∀ x y, listLtB x y = false → listLtB y x = false → x = y := by
  intro x
  induction x with
  | nil =>
    intro y h₁ _
    cases y with
    | nil => rfl
    | cons c cs => simp [listLtB] at h₁
  | cons a as ih =>
    intro y h₁ h₂
    cases y with
    | nil => simp [listLtB] at h₂
    | cons b bs =>
      by_cases hab : a = b
      · subst hab
        simp only [listLtB, if_pos rfl] at h₁ h₂
        rw [ih bs h₁ h₂]
      · have hba : b ≠ a := fun q => hab q.symm
        simp only [listLtB, if_neg hab, decide_eq_false_iff_not] at h₁
        simp only [listLtB, if_neg hba, decide_eq_false_iff_not] at h₂
        exact absurd (char_eq_of_toNat_eq (by omega)) hab

theorem listLtB_trans : ∀ x y z, listLtB x y = true → listLtB y z = true → listLtB x z = true := by
  intro x
  induction x with
  | nil =>
    intro y z h₁ h₂
    cases y with
    | nil => simp [listLtB] at h₁
    | cons b bs =>
      cases z with
      | nil => simp [listLtB] at h₂
      | cons c cs => rfl
  | cons a as ih =>
    intro y z h₁ h₂
    cases y with
    | nil => simp [listLtB] at h₁
    | cons b bs =>
      cases z with
      | nil => simp [listLtB] at h₂
      | cons c cs =>
        by_cases hab : a = b
        · subst hab
          by_cases hac : a = c
          · subst hac
            simp only [listLtB, if_pos rfl] at h₁ h₂ ⊢
            exact ih bs cs h₁ h₂
          · simp only [listLtB, if_pos rfl] at h₁
            simp only [listLtB, if_neg hac] at h₂ ⊢
            exact h₂
        · by_cases hbc : b = c
          · subst hbc
            simp only [listLtB, if_neg hab] at h₁ ⊢
            exact h₁
          · simp only [listLtB, if_neg hab, decide_eq_true_eq] at h₁
            simp only [listLtB, if_neg hbc, decide_eq_true_eq] at h₂
            have hac : a ≠ c := fun q => by subst q; omega
            simp only [listLtB, if_neg hac, decide_eq_true_eq]
            omega

theorem strLeB_refl (a : String) : strLeB a a = true := by
  unfold strLeB
  simp [listLtB_irrefl]

theorem strLeB_total (a b : String) : strLeB a b || strLeB b a := by
  unfold strLeB
  cases h : listLtB b.data a.data with
  | false => simp
  | true => simp [listLtB_asymm _ _ h]

theorem strLeB_trans (a b c : String) (h₁ : strLeB a b) (h₂ : strLeB b c) : strLeB a c := by
  unfold strLeB at h₁ h₂ ⊢
  rw [Bool.not_eq_true'] at h₁ h₂ ⊢
  cases hq : listLtB c.data a.data with
  | false => rfl
  | true =>
    cases hv : listLtB b.data c.data with
    | true =>
      have := listLtB_trans _ _ _ hv hq
      rw [this] at h₁
      exact h₁
    | false =>
      have hcb : c.data = b.data := listLtB_conn _ _ h₂ hv
      rw [hcb] at hq
      rw [hq] at h₁
      exact h₁

/-- The child comparison of `sorting_db_entries`: ascending by the raw date
string (totalized with `""`; the `.isSome` guard of the caller rules the
default out). -/
def childLe (m : SiteMap) (a b : String) : Bool :=
  strLeB ((childDateKey m a).getD "") ((childDateKey m b).getD "")

/-- The per-page body of `sorting_db_entries`: for a database with more than
one child whose first child carries a date, stably sort the children
ascending by the raw date-string key.  Python's `sorted(xs, key=f)` first
maps `f` over all elements (raising `KeyError` if any child id is absent
from `pages` or its record has no `date`), then sorts stably. -/
def sorting_db_entries_page (m : SiteMap) (p : SPage) : Except PyErr SPage :=
  if p.ptype == "database" && decide (1 < p.children.length) then
    match p.children with
    | [] => .ok p
    | c₀ :: _ =>
      match m.lookup c₀ with
      | none => .error .keyError
      | some pc =>
        if pc.date.isSome then
          if p.children.all (fun c => (childDateKey m c).isSome) then
            .ok { p with children := pySorted (childLe m) p.children }
          else .error .keyError
        else .ok p
  else .ok p

/-- The loop of `sorting_db_entries` over all pages, raising at the first
failing database.  The sort key of a page only reads `date` fields, which
this pass never writes, so reading from the initial map is faithful to the
in-place Python mutation. -/
def sorting_db_entries_aux (m : SiteMap) : List (String × SPage) → Except PyErr (List (String × SPage))
  | [] => .ok []
  | (id, p) :: rest =>
    match sorting_db_entries_page m p with
    | .error e => .error e
    | .ok p' =>
      match sorting_db_entries_aux m rest with
      | .error e => .error e
      | .ok rest' => .ok ((id, p') :: rest')

/-- `structuring.sorting_db_entries`. -/
def sorting_db_entries (m : SiteMap) : Except PyErr SiteMap :=
  sorting_db_entries_aux m m

theorem sorting_db_entries_page_ok (m : SiteMap) (p : SPage)
    (h : p.ptype = "database" → ∀ c ∈ p.children, (childDateKey m c).isSome) :
    ∃ p', sorting_db_entries_page m p = .ok p' := by
  unfold sorting_db_entries_page
  by_cases hdb : p.ptype = "database"
  · have hall := h hdb
    cases hc : p.children with
    | nil => simp [hc]
    | cons c₀ t =>
      have h₀ : (childDateKey m c₀).isSome := hall c₀ (hc ▸ List.mem_cons_self _ _)
      obtain ⟨pc, hpc, hdate⟩ : ∃ pc, m.lookup c₀ = some pc ∧ pc.date.isSome := by
        unfold childDateKey at h₀
        cases hq : m.lookup c₀ with
        | none => rw [hq] at h₀; simp at h₀
        | some pc => rw [hq] at h₀; exact ⟨pc, rfl, h₀⟩
      have hallt : ∀ c ∈ t, (childDateKey m c).isSome := by
        intro c hcm
        exact hall c (hc ▸ List.mem_cons_of_mem _ hcm)
      have hball : ∀ x ∈ c₀ :: t, (childDateKey m x).isSome = true := by
        intro x hx
        rcases List.mem_cons.mp hx with rfl | hx
        · exact h₀
        · exact hallt x hx
      by_cases hlen : 0 < t.length
      · simp only [hdb, hlen, hpc, hdate, h₀, List.length_cons, beq_self_eq_true,
          Bool.and_eq_true, decide_eq_true_eq, List.all_eq_true]
        rw [if_pos ⟨trivial, by omega⟩, if_pos trivial, if_pos hball]
        exact ⟨_, rfl⟩
      · have ht : t = [] := by
          cases t with
          | nil => rfl
          | cons x xs => simp at hlen
        subst ht
        have hcond : (p.ptype == "database" && decide (1 < ([c₀] : List String).length)) = false := by
          simp
        simp [hcond]
  · have hb : (p.ptype == "database") = false := by simp [hdb]
    simp [hb]

theorem sorting_db_entries_aux_ok (m : SiteMap) :
    ∀ l : List (String × SPage),
      (∀ e ∈ l, e.2.ptype = "database" → ∀ c ∈ e.2.children, (childDateKey m c).isSome) →
      ∃ l', sorting_db_entries_aux m l = .ok l' := by
  intro l
  induction l with
  | nil => intro _; exact ⟨[], rfl⟩
  | cons e rest ih =>
    intro h
    obtain ⟨p', hp'⟩ :=
      sorting_db_entries_page_ok m e.2 (h e (List.mem_cons_self _ _))
    obtain ⟨rest', hrest'⟩ := ih (fun x hx => h x (List.mem_cons_of_mem _ hx))
    refine ⟨(e.1, p') :: rest', ?_⟩
    simp [sorting_db_entries_aux, hp', hrest']

/-- Claim C10 (confirmed): the Ordering Pass reads the `date` field of every
child of a sorting-eligible database, so the key-lookup error branch is
reachable when a non-first child lacks a date (first conjunct, a concrete
input); and under the precondition that every child of every database
resolves to a page carrying a date, the pass never raises (second
conjunct). -/
theorem c10_sorting_db_entries_key_error (m : SiteMap)
    (h : ∀ e ∈ m, e.2.ptype = "database" → ∀ c ∈ e.2.children, (childDateKey m c).isSome) :
    (sorting_db_entries
        [("db", ⟨"database", ["A", "B"], none⟩),
         ("A", ⟨"db_entry", [], some "2021-01-01"⟩),
         ("B", ⟨"db_entry", [], none⟩)] = .error .keyError) ∧
      ∃ m', sorting_db_entries m = .ok m' := by
  refine ⟨rfl, ?_⟩
  exact sorting_db_entries_aux_ok m m h

theorem c10_sorting_db_entries_key_error_witness :
    ∃ m', sorting_db_entries
        [("db", ⟨"database", ["A", "B"], none⟩),
         ("A", ⟨"db_entry", [], some "2021-01-01"⟩),
         ("B", ⟨"db_entry", [], some "2021-02-01"⟩)] = .ok m' :=
  (c10_sorting_db_entries_key_error
      [("db", ⟨"database", ["A", "B"], none⟩),
       ("A", ⟨"db_entry", [], some "2021-01-01"⟩),
       ("B", ⟨"db_entry", [], some "2021-02-01"⟩)] (by decide)).2

theorem childLe_total (m : SiteMap) (a b : String) : childLe m a b || childLe m b a :=
  strLeB_total _ _

theorem childLe_trans (m : SiteMap) (a b c : String)
    (h₁ : childLe m a b) (h₂ : childLe m b c) : childLe m a c :=
  strLeB_trans _ _ _ h₁ h₂

/-- Claim C6 (counterexample): `sorting_db_entries` compares date strings
lexicographically, not as parsed instants.  The entry `A`
(`2021-06-01T10:00:00+09:00`, instant `2021-06-01T01:00Z`) is strictly
earlier than `B` (`2021-06-01T05:00:00+00:00`), yet the pass orders the
children `["B", "A"]` because `"...T05..." < "...T10..."` as strings, so the
children are not ascending by parsed date. -/
theorem c6_sorting_counterexample :
    sorting_db_entries
        [("db", ⟨"database", ["A", "B"], none⟩),
         ("A", ⟨"db_entry", [], some "2021-06-01T10:00:00+09:00"⟩),
         ("B", ⟨"db_entry", [], some "2021-06-01T05:00:00+00:00"⟩)] =
      .ok
        [("db", ⟨"database", ["B", "A"], none⟩),
         ("A", ⟨"db_entry", [], some "2021-06-01T10:00:00+09:00"⟩),
         ("B", ⟨"db_entry", [], some "2021-06-01T05:00:00+00:00"⟩)] ∧
      isoparse "2021-06-01T10:00:00+09:00" = some ⟨2021, 6, 1, 10, 0, 0, 0, some 540⟩ ∧
      isoparse "2021-06-01T05:00:00+00:00" = some ⟨2021, 6, 1, 5, 0, 0, 0, some 0⟩ ∧
      pyDtLtB ⟨2021, 6, 1, 10, 0, 0, 0, some 540⟩ ⟨2021, 6, 1, 5, 0, 0, 0, some 0⟩ = true := by
  refine ⟨rfl, by decide, by decide, by decide⟩

/-- Claim C6 (amended): for a database with more than one child whose first
child carries a date (and, for the sort to complete, every child resolving to
a dated page), the Ordering Pass stably re-sorts the children ascending by
the raw date string compared lexicographically — not by parsed instants: the
output is a permutation of the children, pairwise ascending in the raw-string
order, and children with equal date strings keep their original relative
order. -/
theorem c6_sorting_by_raw_string (m : SiteMap) (p p' : SPage)
    (hok : sorting_db_entries_page m p = .ok p')
    (hdb : p.ptype = "database") (hlen : 1 < p.children.length)
    (hdates : ∀ c ∈ p.children, (childDateKey m c).isSome) :
    p'.children.Perm p.children ∧
      p'.children.Pairwise (fun a b => childLe m a b = true) ∧
      ∀ K : String,
        p'.children.filter (fun c => (childDateKey m c).getD "" == K) =
          p.children.filter (fun c => (childDateKey m c).getD "" == K) := by
  have hchildren : p'.children = pySorted (childLe m) p.children := by
    unfold sorting_db_entries_page at hok
    cases hc : p.children with
    | nil => rw [hc] at hlen; simp at hlen
    | cons c₀ t =>
      have h₀ : (childDateKey m c₀).isSome := hdates c₀ (hc ▸ List.mem_cons_self _ _)
      obtain ⟨pc, hpc, hdate⟩ : ∃ pc, m.lookup c₀ = some pc ∧ pc.date.isSome := by
        unfold childDateKey at h₀
        cases hq : m.lookup c₀ with
        | none => rw [hq] at h₀; simp at h₀
        | some pc => rw [hq] at h₀; exact ⟨pc, rfl, h₀⟩
      have hallb : (c₀ :: t).all (fun c => (childDateKey m c).isSome) = true := by
        rw [List.all_eq_true]
        intro c hcm
        exact hdates c (hc ▸ hcm)
      rw [hc] at hok
      simp [hdb, hc ▸ hlen, hpc, hdate, hallb] at hok
      have ht : 0 < t.length := by
        rw [hc] at hlen
        simp only [List.length_cons] at hlen
        omega
      rw [if_pos ht] at hok
      injection hok with hinj
      rw [← hinj]
  refine ⟨?_, ?_, ?_⟩
  · rw [hchildren]; exact pySorted_perm _ _
  · rw [hchildren]
    exact pySorted_pairwise _ (childLe_total m) (childLe_trans m) _
  · intro K
    rw [hchildren]
    refine pySorted_stable _ _ ?_ _
    intro a b ha hb
    have ha' : (childDateKey m a).getD "" = K := by simpa using ha
    have hb' : (childDateKey m b).getD "" = K := by simpa using hb
    unfold childLe
    rw [ha', hb']
    exact strLeB_refl K

theorem c6_sorting_by_raw_string_witness :
    ∃ p', sorting_db_entries_page
        [("db", ⟨"database", ["A", "B"], none⟩),
         ("A", ⟨"db_entry", [], some "2021-02-01"⟩),
         ("B", ⟨"db_entry", [], some "2021-01-01"⟩)]
        ⟨"database", ["A", "B"], none⟩ = .ok p' ∧
      p'.children.Pairwise (fun a b =>
        childLe
          [("db", ⟨"database", ["A", "B"], none⟩),
           ("A", ⟨"db_entry", [], some "2021-02-01"⟩),
           ("B", ⟨"db_entry", [], some "2021-01-01"⟩)] a b = true) :=
  ⟨⟨"database", ["B", "A"], none⟩, rfl,
   (c6_sorting_by_raw_string
      [("db", ⟨"database", ["A", "B"], none⟩),
       ("A", ⟨"db_entry", [], some "2021-02-01"⟩),
       ("B", ⟨"db_entry", [], some "2021-01-01"⟩)]
      ⟨"database", ["A", "B"], none⟩ ⟨"database", ["B", "A"], none⟩
      rfl rfl (by decide) (by decide)).2.1⟩

/-! ## structuring.download_and_replace_paths (source lines 411-459)

The Asset Localizer is modelled for the `build_locally = False` configuration
(the site-url branch; both branches share the try/except structure and the
rewrite block).  The filesystem and the network are external: the fate of
each file url (already present on disk, fetched, `HTTPError`, `ValueError`)
is an oracle parameter.  The URL helpers below embed the `urllib` behaviour
on the http(s) URLs this code processes (no dot-segment normalization, no
query strings in the page url, single-byte percent escapes). -/

/-- Split at the first occurrence of `pat`: `some (before, after)`. -/
def findSplit (pat : List Char) : List Char → Option (List Char × List Char)
  | [] => if pat.isEmpty then some ([], []) else none
  | c :: s =>
    if pat.isPrefixOf (c :: s) then some ([], (c :: s).drop pat.length)
    else
      match findSplit pat s with
      | some (pre, post) => some (c :: pre, post)
      | none => none

/-- `urlparse(u).path`: for a `scheme://authority/path` URL, the part after
the authority up to any query or fragment; for a scheme-less reference, the
text up to any query or fragment. -/
def urlparsePath (u : String) : String :=
  match findSplit "://".data u.data with
  | some (_, rest) =>
    ⟨(rest.dropWhile (· ≠ '/')).takeWhile (fun c => !(c = '?' ∨ c = '#'))⟩
  | none => ⟨u.data.takeWhile (fun c => !(c = '?' ∨ c = '#'))⟩

/-- The path directory up to and including the last `/`. -/
def dropLastSegment (p : List Char) : List Char :=
  (p.reverse.dropWhile (· ≠ '/')).reverse

/-- `urllib.parse.urljoin` on the reference shapes occurring here: an
absolute reference wins; a root-relative reference keeps scheme and
authority; otherwise the last path segment of the base is replaced. -/
def pyUrljoin (base rel : String) : String :=
  if rel = "" then base
  else
    match findSplit "://".data rel.data with
    | some _ => rel
    | none =>
      match findSplit "://".data base.data with
      | some (scheme, rest) =>
        if rel.data.head? = some '/' then
          ⟨scheme ++ "://".data ++ rest.takeWhile (· ≠ '/') ++ rel.data⟩
        else
          ⟨scheme ++ "://".data ++ rest.takeWhile (· ≠ '/') ++
            dropLastSegment (rest.dropWhile (· ≠ '/')) ++ rel.data⟩
      | none => ⟨dropLastSegment base.data ++ rel.data⟩

/-- `PurePath(p).name`: the final path segment. -/
def pathName (p : String) : String :=
  ⟨(p.data.reverse.takeWhile (· ≠ '/')).reverse⟩

def isHexDigit (c : Char) : Bool := c.isDigit || ('a' ≤ c ∧ c ≤ 'f') || ('A' ≤ c ∧ c ≤ 'F')

def hexVal (c : Char) : Nat :=
  if c.isDigit then c.toNat - 48
  else if 'a' ≤ c ∧ c ≤ 'f' then c.toNat - 87
  else c.toNat - 55

/-- `urllib.parse.unquote` on character lists, for single-byte percent
escapes (multi-byte UTF-8 escapes are out of scope for this model). -/
def pyUnquoteL : List Char → List Char
  | [] => []
  | '%' :: a :: b :: r =>
    if isHexDigit a ∧ isHexDigit b then Char.ofNat (16 * hexVal a + hexVal b) :: pyUnquoteL r
    else '%' :: pyUnquoteL (a :: b :: r)
  | c :: r => c :: pyUnquoteL r

def pyUnquote (s : String) : String := ⟨pyUnquoteL s.data⟩

/-- The local destination URL of one file: `clean_url` strips the query from
the file url, `filename` is its URL-decoded basename, and the new url joins
it under the page url. -/
def newUrlFor (pageUrl fileUrl : String) : String :=
  let clean_url := pyUrljoin fileUrl (urlparsePath fileUrl)
  let filename := pyUnquote (pathName clean_url)
  pyUrljoin (pageUrl ++ "/") filename

/-- The fate of one file url in the external world: the destination already
exists on disk (download skipped), the download succeeds, it raises
`HTTPError`, or it raises `ValueError`. -/
inductive FileFate where
  | alreadyExists
  | fetched
  | httpError
  | valueError
deriving DecidableEq

/-- The per-entity fields read and written by `download_and_replace_paths`. -/
structure LocPage where
  ptype : String
  url : String
  files : List String
  md_content : String
  icon : Option String
  cover : Option String
  properties_md : List (String × String)
deriving DecidableEq

/-- The body of the inner loop of `download_and_replace_paths` for one file
url.  A `ValueError` hits `continue`: nothing is mutated.  In every other
case — including `HTTPError`, which is logged as a warning and falls
through — the rewrite block runs: the files entry is overwritten, the
markdown body and (for a db_entry) every containing `properties_md` value
get a replace-all, and `icon`/`cover` are overwritten when exactly equal to
the file url. -/
def processFile (env : String → FileFate) (st : LocPage) (i : Nat) (file_url : String) : LocPage :=
  let new_url := newUrlFor st.url file_url
  match env file_url with
  | .valueError => st
  | _ =>
    { st with
      files := st.files.set i new_url,
      md_content := pyReplace st.md_content file_url new_url,
      icon := if st.icon = some file_url then some new_url else st.icon,
      cover := if st.cover = some file_url then some new_url else st.cover,
      properties_md :=
        if st.ptype == "db_entry" then
          st.properties_md.map (fun nv =>
            if pyIn file_url nv.2 then (nv.1, pyReplace nv.2 file_url new_url) else nv)
        else st.properties_md }

/-- The inner loop of `download_and_replace_paths` over one entity:
`enumerate(page["files"])` reads each index from the live list, but index
`i` is only written after it is read, so iterating the initial list is
faithful. -/
def download_and_replace_page (env : String → FileFate) (page : LocPage) : LocPage :=
  page.files.enum.foldl (fun st ifu => processFile env st ifu.1 ifu.2) page

/-- Joining chunks with a separator. -/
def joinWith (sep : List Char) : List (List Char) → List Char
  | [] => []
  | [c] => c
  | c :: c₂ :: cs => c ++ sep ++ joinWith sep (c₂ :: cs)

theorem joinWith_consHead (sep : List Char) (c : Char) (h : List Char)
    (t : List (List Char)) :
    joinWith sep ((c :: h) :: t) = c :: joinWith sep (h :: t) := by
  cases t <;> simp [joinWith]

/-- `pySplitFuel` never returns the empty list of chunks. -/
theorem pySplitFuel_ne_nil (p : Char) (ps : List Char) :
    ∀ n s, pySplitFuel p ps n s ≠ [] := by
  intro n
  cases n with
  | zero =>
    intro s
    cases s <;> simp [pySplitFuel]
  | succ n =>
    intro s
    cases s with
    | nil => simp [pySplitFuel]
    | cons c s =>
      simp only [pySplitFuel]
      split
      · exact List.cons_ne_nil _ _
      · split <;> exact List.cons_ne_nil _ _

/-- The replacement is the separator-join of the split chunks: Python
`s.replace(a, b) == b.join(s.split(a))`. -/
theorem pyRepFuel_eq_joinWith (p : Char) (ps rep : List Char) :
    ∀ n s, pyRepFuel p ps rep n s = joinWith rep (pySplitFuel p ps n s) := by
  intro n
  induction n with
  | zero =>
    intro s
    cases s with
    | nil => rfl
    | cons c s => rfl
  | succ n ih =>
    intro s
    cases s with
    | nil => rfl
    | cons c s =>
      simp only [pyRepFuel, pySplitFuel]
      split
      · obtain ⟨h, t, heq⟩ : ∃ h t, pySplitFuel p ps n (s.drop ps.length) = h :: t := by
          cases hq : pySplitFuel p ps n (s.drop ps.length) with
          | nil => exact absurd hq (pySplitFuel_ne_nil p ps n _)
          | cons h t => exact ⟨h, t, rfl⟩
        rw [ih, heq]
        cases t <;> simp [joinWith]
      · rw [ih]
        cases hq : pySplitFuel p ps n s with
        | nil => simp [joinWith]
        | cons h t => rw [joinWith_consHead]

theorem isPrefixOf_self : ∀ s : List Char, s.isPrefixOf s = true := by
  intro s
  induction s with
  | nil => rfl
  | cons c cs ih => simp [List.isPrefixOf, ih]

/-- The first chunk of the split is a prefix of the scanned list. -/
theorem pySplitFuel_head_isPrefixOf (p : Char) (ps : List Char) :
    ∀ n s h t, pySplitFuel p ps n s = h :: t → h.isPrefixOf s := by
  intro n
  induction n with
  | zero =>
    intro s h t heq
    cases s with
    | nil =>
      simp only [pySplitFuel] at heq
      cases heq
      simp [List.isPrefixOf]
    | cons c s =>
      simp only [pySplitFuel] at heq
      cases heq
      exact isPrefixOf_self _
  | succ n ih =>
    intro s h t heq
    cases s with
    | nil =>
      simp only [pySplitFuel] at heq
      cases heq
      simp [List.isPrefixOf]
    | cons c s =>
      simp only [pySplitFuel] at heq
      split at heq
      · cases heq
        simp [List.isPrefixOf]
      · rename_i hnp
        cases hq : pySplitFuel p ps n s with
        | nil => exact absurd hq (pySplitFuel_ne_nil p ps n s)
        | cons h₂ t₂ =>
          rw [hq] at heq
          injection heq with heqh heqt
          subst heqh
          have hpre := ih s h₂ t₂ hq
          simpa [List.isPrefixOf] using hpre

theorem isPrefixOf_trans :
    ∀ a b c : List Char, a.isPrefixOf b → b.isPrefixOf c → a.isPrefixOf c := by
  intro a
  induction a with
  | nil => intro b c _ _; simp [List.isPrefixOf]
  | cons x xs ih =>
    intro b c hab hbc
    cases b with
    | nil => simp [List.isPrefixOf] at hab
    | cons y ys =>
      cases c with
      | nil => simp [List.isPrefixOf] at hbc
      | cons z zs =>
        simp only [List.isPrefixOf, Bool.and_eq_true, beq_iff_eq] at hab hbc ⊢
        exact ⟨hab.1.trans hbc.1, ih ys zs hab.2 hbc.2⟩

/-- No chunk of the split contains the pattern: every occurrence was
consumed by the scan. -/
theorem pySplitFuel_chunks_free (p : Char) (ps : List Char) :
    ∀ n s, s.length ≤ n →
      ∀ chunk ∈ pySplitFuel p ps n s, pyInAux (p :: ps) chunk = false := by
  intro n
  induction n with
  | zero =>
    intro s hs chunk hmem
    have : s = [] := List.eq_nil_of_length_eq_zero (Nat.le_zero.mp hs)
    subst this
    simp only [pySplitFuel, List.mem_singleton] at hmem
    subst hmem
    simp [pyInAux, List.isEmpty]
  | succ n ih =>
    intro s hs chunk hmem
    cases s with
    | nil =>
      simp only [pySplitFuel, List.mem_singleton] at hmem
      subst hmem
      simp [pyInAux, List.isEmpty]
    | cons c s =>
      have hlen : s.length ≤ n := by
        simp only [List.length_cons] at hs
        omega
      simp only [pySplitFuel] at hmem
      split at hmem
      · rcases List.mem_cons.mp hmem with rfl | hmem
        · simp [pyInAux, List.isEmpty]
        · exact ih (s.drop ps.length)
            (le_trans (by simp [List.length_drop]) hlen)
            chunk hmem
      · rename_i hnp
        cases hq : pySplitFuel p ps n s with
        | nil => exact absurd hq (pySplitFuel_ne_nil p ps n s)
        | cons h t =>
          rw [hq] at hmem
          rcases List.mem_cons.mp hmem with rfl | hmem
          · have hh : pyInAux (p :: ps) h = false :=
              ih s hlen h (hq ▸ List.mem_cons_self _ _)
            have hpre : h.isPrefixOf s := pySplitFuel_head_isPrefixOf p ps n s h t hq
            simp only [pyInAux, Bool.or_eq_false_iff]
            refine ⟨?_, hh⟩
            cases hpp : (p :: ps).isPrefixOf (c :: h) with
            | false => rfl
            | true =>
              exfalso
              have : (c :: h).isPrefixOf (c :: s) := by
                simpa [List.isPrefixOf] using hpre
              exact hnp (isPrefixOf_trans _ _ _ hpp this)
          · exact ih s hlen chunk (hq ▸ List.mem_cons_of_mem _ hmem)

/-- Claim C2 (counterexample): an `HTTPError` does not leave the original
remote URL in place — the warning is logged and execution falls through to
the rewrite block, so the files entry and the markdown body are still
rewritten to the (never downloaded) local path. -/
theorem c2_http_error_counterexample :
    download_and_replace_page (fun _ => FileFate.httpError)
        ⟨"page", "https://site.example/page",
         ["https://files.example/img/photo.png"],
         "see https://files.example/img/photo.png here", none, none, []⟩ =
      ⟨"page", "https://site.example/page",
       ["https://site.example/page/photo.png"],
       "see https://site.example/page/photo.png here", none, none, []⟩ ∧
      ["https://site.example/page/photo.png"] ≠ ["https://files.example/img/photo.png"] :=
  ⟨rfl, by decide⟩

/-- Claim C2 (amended): in the Asset Localizer, a `ValueError` skips the
file entirely with no state mutated; an `HTTPError` is logged and processing
continues, but the rewrite block still runs exactly as on a successful
download: the files entry, markdown body, icon/cover and propertiesMd are
rewritten to the local path even though nothing was downloaded. -/
theorem c2_fetch_failure_handling (env : String → FileFate) (st : LocPage)
    (i : Nat) (fu : String) :
    (env fu = FileFate.valueError → processFile env st i fu = st) ∧
      (env fu = FileFate.httpError →
        processFile env st i fu = processFile (fun _ => FileFate.fetched) st i fu ∧
          (processFile env st i fu).files = st.files.set i (newUrlFor st.url fu) ∧
          (processFile env st i fu).md_content =
            pyReplace st.md_content fu (newUrlFor st.url fu)) := by
  constructor
  · intro h
    simp [processFile, h]
  · intro h
    refine ⟨?_, ?_, ?_⟩ <;> simp [processFile, h]

theorem c2_fetch_failure_handling_witness :
    processFile (fun _ => FileFate.httpError)
        ⟨"page", "https://site.example/page",
         ["https://files.example/img/photo.png"],
         "see https://files.example/img/photo.png here", none, none, []⟩ 0
        "https://files.example/img/photo.png" =
      processFile (fun _ => FileFate.fetched)
        ⟨"page", "https://site.example/page",
         ["https://files.example/img/photo.png"],
         "see https://files.example/img/photo.png here", none, none, []⟩ 0
        "https://files.example/img/photo.png" :=
  ((c2_fetch_failure_handling (fun _ => FileFate.httpError)
      ⟨"page", "https://site.example/page",
       ["https://files.example/img/photo.png"],
       "see https://files.example/img/photo.png here", none, none, []⟩ 0
      "https://files.example/img/photo.png").2 rfl).1

theorem eq_append_drop_of_isPrefixOf :
    ∀ (ps s : List Char), ps.isPrefixOf s → ps ++ s.drop ps.length = s := by
  intro ps
  induction ps with
  | nil => intro s _; simp
  | cons q qs ih =>
    intro s hps
    cases s with
    | nil => simp [List.isPrefixOf] at hps
    | cons y ys =>
      simp only [List.isPrefixOf, Bool.and_eq_true, beq_iff_eq] at hps
      obtain ⟨rfl, hys⟩ := hps
      simp only [List.length_cons, List.drop_succ_cons, List.cons_append]
      exact congrArg (q :: ·) (ih ys hys)

/-- Replacing the pattern by itself is the identity on adequately fuelled
scans. -/
theorem pyRepFuel_self_id (p : Char) (ps : List Char) :
    ∀ n s, s.length ≤ n → pyRepFuel p ps (p :: ps) n s = s := by
  intro n
  induction n with
  | zero =>
    intro s hs
    have hnil : s = [] := List.eq_nil_of_length_eq_zero (Nat.le_zero.mp hs)
    subst hnil
    rfl
  | succ n ih =>
    intro s hs
    cases s with
    | nil => rfl
    | cons c s =>
      have hlen : s.length ≤ n := by
        simp only [List.length_cons] at hs
        omega
      simp only [pyRepFuel]
      split
      · rename_i hp
        have hpc : p = c ∧ ps.isPrefixOf s := by
          simpa [List.isPrefixOf] using hp
        obtain ⟨rfl, hps⟩ := hpc
        rw [ih _ (le_trans (by simp [List.length_drop]) hlen)]
        simp only [List.cons_append]
        rw [eq_append_drop_of_isPrefixOf ps s hps]
      · rw [ih s hlen]

/-- Joining the split chunks with the pattern itself restores the input. -/
theorem joinWith_pySplitFuel (p : Char) (ps : List Char) (n : Nat) (s : List Char)
    (hs : s.length ≤ n) :
    joinWith (p :: ps) (pySplitFuel p ps n s) = s := by
  rw [← pyRepFuel_eq_joinWith]
  exact pyRepFuel_self_id p ps n s hs

/-- Claim C5 (counterexample): after a successful fetch the cover field is
rewritten only when it is exactly equal to the file url, so a cover that
contains the fetched url as a proper substring retains it: with files entry
`https://h/a` and cover `https://h/a.png`, the cover still contains
`https://h/a` after the localizer runs. -/
theorem c5_cover_counterexample :
    (download_and_replace_page (fun _ => FileFate.fetched)
        ⟨"page", "https://site.example/p", ["https://h/a"], "", none,
         some "https://h/a.png", []⟩).cover = some "https://h/a.png" ∧
      pyIn "https://h/a" "https://h/a.png" = true ∧
      (download_and_replace_page (fun _ => FileFate.fetched)
          ⟨"page", "https://site.example/p", ["https://h/a"], "", none,
           some "https://h/a.png", []⟩).files = ["https://site.example/p/a"] :=
  ⟨rfl, by decide, rfl⟩

/-- Claim C5 (amended): for every file url whose fetch succeeded, the rewrite
replaces every textual occurrence of the exact original url — not only the
first — in the files entry, the markdown body, and every containing
propertiesMd value (the markdown body decomposes into url-free chunks joined
by the url, and the result joins the same chunks by the local path); the
cover and icon fields, however, are rewritten only when exactly equal to the
url, so they may retain it as a proper substring. -/
theorem c5_rewrite_complete (env : String → FileFate) (st : LocPage) (i : Nat)
    (fu : String) (hf : env fu = FileFate.fetched) (p : Char) (ps : List Char)
    (hpat : fu.data = p :: ps) :
    (processFile env st i fu).files = st.files.set i (newUrlFor st.url fu) ∧
      (processFile env st i fu).md_content = pyReplace st.md_content fu (newUrlFor st.url fu) ∧
      (∃ chunks, chunks ≠ [] ∧
        st.md_content.data = joinWith fu.data chunks ∧
        (pyReplace st.md_content fu (newUrlFor st.url fu)).data =
          joinWith (newUrlFor st.url fu).data chunks ∧
        ∀ chunk ∈ chunks, pyInAux fu.data chunk = false) ∧
      (processFile env st i fu).cover =
        (if st.cover = some fu then some (newUrlFor st.url fu) else st.cover) ∧
      (processFile env st i fu).icon =
        (if st.icon = some fu then some (newUrlFor st.url fu) else st.icon) ∧
      (processFile env st i fu).properties_md =
        (if st.ptype == "db_entry" then
          st.properties_md.map (fun nv =>
            if pyIn fu nv.2 then (nv.1, pyReplace nv.2 fu (newUrlFor st.url fu)) else nv)
        else st.properties_md) := by
  refine ⟨by simp [processFile, hf], by simp [processFile, hf], ?_,
    by simp [processFile, hf], by simp [processFile, hf], by simp [processFile, hf]⟩
  refine ⟨pySplitFuel p ps st.md_content.data.length st.md_content.data,
    pySplitFuel_ne_nil p ps _ _, ?_, ?_, ?_⟩
  · rw [hpat]
    exact (joinWith_pySplitFuel p ps _ _ le_rfl).symm
  · show (pyReplace st.md_content fu (newUrlFor st.url fu)).data = _
    simp only [pyReplace, hpat]
    rw [pyRepFuel_eq_joinWith]
  · rw [hpat]
    exact pySplitFuel_chunks_free p ps _ _ le_rfl

theorem c5_rewrite_complete_witness :
    (processFile (fun _ => FileFate.fetched)
        ⟨"page", "https://s.e/p", ["https://h/a.png"],
         "x https://h/a.png y https://h/a.png z", none, none, []⟩ 0
        "https://h/a.png").md_content =
      pyReplace "x https://h/a.png y https://h/a.png z" "https://h/a.png"
        (newUrlFor "https://s.e/p" "https://h/a.png") ∧
      pyReplace "x https://h/a.png y https://h/a.png z" "https://h/a.png"
          (newUrlFor "https://s.e/p" "https://h/a.png") =
        "x https://s.e/p/a.png y https://s.e/p/a.png z" :=
  ⟨(c5_rewrite_complete (fun _ => FileFate.fetched)
      ⟨"page", "https://s.e/p", ["https://h/a.png"],
       "x https://h/a.png y https://h/a.png z", none, none, []⟩ 0
      "https://h/a.png" rfl 'h' "ttps://h/a.png".data rfl).2.1, rfl⟩

/-! ## structuring.generate_urls (source lines 217-264), site-url branch

`generate_urls` assigns the configured site url to the root and, for every
other page, joins the parent url (with a `/` appended) with the title slug
(spaces replaced by underscores), retrying with `_` appended to the slug
while the candidate is already in the global `urls` accumulator.  The
collision loop is embedded with a fuel bound of `urls.length + 1`, which the
freshness lemma below shows is never exhausted: successive candidates
strictly grow, so at most `urls.length` of them can collide. -/

theorem mem_of_getLast?_eq {a : Char} {l : List Char} (h : l.getLast? = some a) : a ∈ l := by
  cases l with
  | nil => simp at h
  | cons x xs =>
    have hm := List.getLast_mem (List.cons_ne_nil x xs)
    rw [List.getLast?_eq_getLast _ (List.cons_ne_nil x xs), Option.some_inj] at h
    rw [← h]
    exact hm

theorem findSplit_decomp (pat : List Char) :
    ∀ s pre post, findSplit pat s = some (pre, post) → s = pre ++ pat ++ post := by
  intro s
  induction s with
  | nil =>
    intro pre post h
    simp only [findSplit] at h
    split at h
    · rename_i hp
      injection h with h
      injection h with h₁ h₂
      subst h₁
      subst h₂
      simp [List.isEmpty_iff.mp hp]
    · cases h
  | cons c s ih =>
    intro pre post h
    simp only [findSplit] at h
    split at h
    · rename_i hp
      injection h with h
      injection h with h₁ h₂
      subst h₁
      subst h₂
      simpa using (eq_append_drop_of_isPrefixOf pat (c :: s) hp).symm
    · cases hq : findSplit pat s with
      | none => rw [hq] at h; cases h
      | some pr =>
        obtain ⟨pre₂, post₂⟩ := pr
        rw [hq] at h
        injection h with h
        injection h with h₁ h₂
        subst h₁
        subst h₂
        have := ih pre₂ post₂ hq
        simp [this]
  
theorem findSplit_none_of_not_mem (p : Char) (ps : List Char) :
    ∀ s : List Char, p ∉ s → findSplit (p :: ps) s = none := by
  intro s
  induction s with
  | nil => intro _; rfl
  | cons c s ih =>
    intro hmem
    have hpc : ((p :: ps).isPrefixOf (c :: s)) = false := by
      have hne : p ≠ c := fun h => hmem (h ▸ List.mem_cons_self _ _)
      simp [List.isPrefixOf, hne]
    simp only [findSplit, hpc, Bool.false_eq_true, if_false]
    rw [ih (fun h => hmem (List.mem_cons_of_mem _ h))]

theorem dropLastSegment_of_getLast_slash (l : List Char) (h : l.getLast? = some '/') :
    dropLastSegment l = l := by
  unfold dropLastSegment
  obtain ⟨rest, hrest⟩ : ∃ rest, l.reverse = '/' :: rest := by
    have hh : l.reverse.head? = some '/' := by rw [List.head?_reverse]; exact h
    cases hq : l.reverse with
    | nil => rw [hq] at hh; simp at hh
    | cons x xs =>
      rw [hq] at hh
      simp only [List.head?_cons, Option.some_inj] at hh
      exact ⟨xs, by rw [hh]⟩
  rw [hrest, List.dropWhile_cons]
  rw [if_neg (by simp)]
  rw [← hrest, List.reverse_reverse]

theorem takeWhile_dropLastSegment_slash (post : List Char)
    (h : post = [] ∨ post.getLast? = some '/') :
    post.takeWhile (· ≠ '/') ++ dropLastSegment (post.dropWhile (· ≠ '/')) = post := by
  rcases h with rfl | h
  · rfl
  · have hmem : '/' ∈ post := mem_of_getLast?_eq h
    have hne : post.dropWhile (· ≠ '/') ≠ [] := by
      rw [Ne, List.dropWhile_eq_nil_iff]
      intro hall
      have := hall '/' hmem
      simp at this
    have hlast : (post.dropWhile (· ≠ '/')).getLast? = some '/' := by
      conv at h => rw [← List.takeWhile_append_dropWhile (p := (· ≠ '/')) (l := post)]
      rwa [List.getLast?_append_of_ne_nil _ hne] at h
    rw [dropLastSegment_of_getLast_slash _ hlast, List.takeWhile_append_dropWhile]

/-- On a base url ending in `/` and a slug containing neither `:` nor `/`,
`urljoin` is plain concatenation. -/
theorem pyUrljoin_slug (base f : String)
    (hb : base.data.getLast? = some '/')
    (hcolon : ':' ∉ f.data) (hslash : '/' ∉ f.data) :
    pyUrljoin base f = base ++ f := by
  by_cases hf0 : f = ""
  · subst hf0
    simp [pyUrljoin, String.append_empty]
  · have hfs : findSplit "://".data f.data = none :=
      findSplit_none_of_not_mem ':' ['/', '/'] f.data hcolon
    unfold pyUrljoin
    rw [if_neg hf0]
    cases hq : findSplit "://".data base.data with
    | some pr =>
      obtain ⟨pre, post⟩ := pr
      have hdec := findSplit_decomp _ base.data pre post hq
      have hhead : ¬ f.data.head? = some '/' := by
        cases hh : f.data with
        | nil => simp
        | cons c cs =>
          simp only [List.head?_cons, Option.some_inj]
          intro hc
          exact hslash (hh ▸ (hc ▸ List.mem_cons_self c cs))
      simp only [hfs, hq, if_neg hhead]
      have hpost : post = [] ∨ post.getLast? = some '/' := by
        by_cases hp0 : post = []
        · left; exact hp0
        · right
          rw [hdec] at hb
          rwa [List.getLast?_append_of_ne_nil _ hp0] at hb
      have hseg := takeWhile_dropLastSegment_slash post hpost
      show String.mk _ = base ++ f
      have hbf : base ++ f = String.mk (base.data ++ f.data) := by
        cases base
        cases f
        rfl
      rw [hbf]
      apply congrArg String.mk
      rw [hdec]
      simp only [List.append_assoc]
      rw [← List.append_assoc (post.takeWhile (· ≠ '/')), hseg]
    | none =>
      simp only [hfs, hq]
      have hbf : base ++ f = String.mk (base.data ++ f.data) := by
        cases base
        cases f
        rfl
      rw [hbf]
      apply congrArg String.mk
      rw [dropLastSegment_of_getLast_slash _ hb]

theorem stringDataEq {a b : String} (h : a.data = b.data) : a = b := by
  cases a
  cases b
  cases h
  rfl

/-- The collision loop of `generate_urls`
(`while f_url in urls: f_name += "_"`), with fuel. -/
def genNameFuel (urls : List String) (base : String) : Nat → String → String
  | 0, f => pyUrljoin base f
  | n + 1, f =>
    if pyUrljoin base f ∈ urls then genNameFuel urls base n (f ++ "_")
    else pyUrljoin base f

/-- The collision loop of `generate_urls`: `urls.length + 1` rounds always
suffice (see `genName_spec`). -/
def genName (urls : List String) (base f : String) : String :=
  genNameFuel urls base (urls.length + 1) f

theorem length_filter_le_of_imp (l : List α) (p q : α → Bool)
    (himp : ∀ a, p a = true → q a = true) :
    (l.filter p).length ≤ (l.filter q).length := by
  induction l with
  | nil => exact Nat.le_refl _
  | cons x xs ih =>
    cases hp : p x with
    | true =>
      rw [List.filter_cons_of_pos (by simp [hp]), List.filter_cons_of_pos (by simp [himp x hp])]
      simpa using ih
    | false =>
      rw [List.filter_cons_of_neg (by simp [hp])]
      cases hq : q x with
      | true =>
        rw [List.filter_cons_of_pos (by simp [hq])]
        simp only [List.length_cons]
        omega
      | false =>
        rw [List.filter_cons_of_neg (by simp [hq])]
        exact ih

theorem length_filter_lt_of_imp (l : List α) (p q : α → Bool)
    (himp : ∀ a, p a = true → q a = true) (x : α) (hx : x ∈ l)
    (hqx : q x = true) (hpx : p x = false) :
    (l.filter p).length < (l.filter q).length := by
  induction l with
  | nil => cases hx
  | cons y ys ih =>
    rcases List.mem_cons.mp hx with rfl | hmem
    · rw [List.filter_cons_of_neg (by simp [hpx]), List.filter_cons_of_pos (by simp [hqx])]
      have := length_filter_le_of_imp ys p q himp
      simp only [List.length_cons]
      omega
    · cases hp : p y with
      | true =>
        rw [List.filter_cons_of_pos (by simp [hp]), List.filter_cons_of_pos (by simp [himp y hp])]
        have := ih hmem
        simp only [List.length_cons]
        omega
      | false =>
        rw [List.filter_cons_of_neg (by simp [hp])]
        cases hq : q y with
        | true =>
          rw [List.filter_cons_of_pos (by simp [hq])]
          have := ih hmem
          simp only [List.length_cons]
          omega
        | false =>
          rw [List.filter_cons_of_neg (by simp [hq])]
          exact ih hmem

theorem slug_append_underscore (f : String) (hcolon : ':' ∉ f.data) (hslash : '/' ∉ f.data) :
    ':' ∉ (f ++ "_").data ∧ '/' ∉ (f ++ "_").data := by
  have hdata : (f ++ "_").data = f.data ++ ['_'] := by
    cases f
    rfl
  rw [hdata]
  constructor
  · intro h
    rcases List.mem_append.mp h with h | h
    · exact hcolon h
    · simp at h
  · intro h
    rcases List.mem_append.mp h with h | h
    · exact hslash h
    · simp at h

theorem genNameFuel_spec (base : String) (hb : base.data.getLast? = some '/') :
    ∀ (n : Nat) (urls : List String) (f : String),
      ':' ∉ f.data → '/' ∉ f.data →
      (urls.filter (fun u => decide ((base ++ f).length ≤ u.length))).length < n →
      genNameFuel urls base n f ∉ urls ∧
        ∃ k : Nat, genNameFuel urls base n f = base ++ f ++ String.mk (List.replicate k '_') := by
  intro n
  induction n with
  | zero =>
    intro urls f _ _ hn
    exact absurd hn (Nat.not_lt_zero _)
  | succ n ih =>
    intro urls f hcolon hslash hn
    have hcand : pyUrljoin base f = base ++ f := pyUrljoin_slug base f hb hcolon hslash
    simp only [genNameFuel, hcand]
    by_cases hmem : base ++ f ∈ urls
    · rw [if_pos hmem]
      obtain ⟨hc', hs'⟩ := slug_append_underscore f hcolon hslash
      have hlength : (base ++ (f ++ "_")).length = (base ++ f).length + 1 := by
        have h₁ : (base ++ (f ++ "_")).data = base.data ++ f.data ++ ['_'] := by
          cases base
          cases f
          simp
        have h₂ : (base ++ f).data = base.data ++ f.data := by
          cases base
          cases f
          rfl
        show (base ++ (f ++ "_")).data.length = (base ++ f).data.length + 1
        rw [h₁, h₂]
        simp
        omega
      have hlt : (urls.filter
          (fun u => decide ((base ++ (f ++ "_")).length ≤ u.length))).length <
          (urls.filter (fun u => decide ((base ++ f).length ≤ u.length))).length := by
        apply length_filter_lt_of_imp urls _ _ ?_ (base ++ f) hmem
          (by simp) (by simp [hlength])
        intro a ha
        simp only [decide_eq_true_eq] at ha ⊢
        omega
      have := ih urls (f ++ "_") hc' hs' (by omega)
      obtain ⟨hfresh, k, hk⟩ := this
      refine ⟨hfresh, k + 1, ?_⟩
      rw [hk]
      apply stringDataEq
      have hus : ("_" : String).data = ['_'] := rfl
      simp only [String.data_append, hus]
      simp [List.replicate_succ]
    · rw [if_neg hmem]
      refine ⟨hmem, 0, ?_⟩
      apply stringDataEq
      simp [String.data_append]

/-- The collision loop returns a candidate that is fresh for the accumulator
and is the slug extended by finitely many underscores — each retry strictly
lengthens the slug, so the loop terminates. -/
theorem genName_spec (urls : List String) (base f : String)
    (hb : base.data.getLast? = some '/')
    (hcolon : ':' ∉ f.data) (hslash : '/' ∉ f.data) :
    genName urls base f ∉ urls ∧
      ∃ k : Nat, genName urls base f = base ++ f ++ String.mk (List.replicate k '_') := by
  apply genNameFuel_spec base hb (urls.length + 1) urls f hcolon hslash
  have := List.length_filter_le (fun u => decide ((base ++ f).length ≤ u.length)) urls
  omega

/-- The page tree walked by `generate_urls`: each page carries its title and
its children in order. -/
inductive UTree where
  | node (title : String) (children : List UTree)

/-- The decorated tree after url assignment. -/
inductive ATree where
  | node (title url : String) (children : List ATree)

mutual

/-- `generate_urls` for a non-root page: slug the title, run the collision
loop against the accumulator, record the url, then recurse into the children
with this page's url as parent url.  Returns the decorated tree and the
final `urls` accumulator. -/
def genPage (parentUrl : String) (urls : List String) : UTree → ATree × List String
  | .node title children =>
    let f_name := pyReplace title " " "_"
    let f_url := genName urls (parentUrl ++ "/") f_name
    let r := genList f_url (urls ++ [f_url]) children
    (.node title f_url r.1, r.2)

/-- The `for child_id in children: generate_urls(child_id, ...)` loop. -/
def genList (parentUrl : String) (urls : List String) : List UTree → List ATree × List String
  | [] => ([], urls)
  | t :: ts =>
    let r₁ := genPage parentUrl urls t
    let r₂ := genList parentUrl r₁.2 ts
    (r₁.1 :: r₂.1, r₂.2)

end

/-- `generate_urls` at the root (site-url configuration): the root url is
the configured site url, appended to the empty accumulator before the
children are processed. -/
def genRoot (siteUrl : String) : UTree → ATree × List String
  | .node title children =>
    let r := genList siteUrl [siteUrl] children
    (.node title siteUrl r.1, r.2)

mutual

def aUrls : ATree → List String
  | .node _ url children => url :: aUrlsList children

def aUrlsList : List ATree → List String
  | [] => []
  | t :: ts => aUrls t ++ aUrlsList ts

end

mutual

def collectTitles : UTree → List String
  | .node title children => title :: collectTitlesList children

def collectTitlesList : List UTree → List String
  | [] => []
  | t :: ts => collectTitles t ++ collectTitlesList ts

end

/-- A title whose slug contains neither a colon nor a slash (so that
`urljoin` appends it to the parent directory verbatim). -/
def slugOkP (title : String) : Prop :=
  ':' ∉ (pyReplace title " " "_").data ∧ '/' ∉ (pyReplace title " " "_").data

instance (title : String) : Decidable (slugOkP title) := by
  unfold slugOkP
  infer_instance

mutual

theorem genPage_spec : ∀ (t : UTree) (parentUrl : String) (urls : List String),
    (∀ ti ∈ collectTitles t, slugOkP ti) → urls.Nodup →
    ((genPage parentUrl urls t).2 = urls ++ aUrls (genPage parentUrl urls t).1 ∧
      ((genPage parentUrl urls t).2).Nodup)
  | .node title children, parentUrl, urls, hok, hnd => by
    have hslug : slugOkP title := hok title (by simp [collectTitles])
    have hb : (parentUrl ++ "/").data.getLast? = some '/' := by
      have hd : (parentUrl ++ "/").data = parentUrl.data ++ ['/'] := by
        cases parentUrl
        rfl
      rw [hd, List.getLast?_concat]
    obtain ⟨hfresh, _⟩ := genName_spec urls (parentUrl ++ "/")
        (pyReplace title " " "_") hb hslug.1 hslug.2
    have hnd₁ : (urls ++ [genName urls (parentUrl ++ "/") (pyReplace title " " "_")]).Nodup := by
      rw [List.nodup_append]
      exact ⟨hnd, List.nodup_singleton _, by simpa using hfresh⟩
    have hokk : ∀ ti ∈ collectTitlesList children, slugOkP ti := by
      intro ti hti
      exact hok ti (by simp [collectTitles]; right; exact hti)
    have hrec := genList_spec children
        (genName urls (parentUrl ++ "/") (pyReplace title " " "_"))
        (urls ++ [genName urls (parentUrl ++ "/") (pyReplace title " " "_")]) hokk hnd₁
    constructor
    · simp only [genPage, aUrls]
      rw [hrec.1]
      simp
    · simp only [genPage]
      exact hrec.2

theorem genList_spec : ∀ (ts : List UTree) (parentUrl : String) (urls : List String),
    (∀ ti ∈ collectTitlesList ts, slugOkP ti) → urls.Nodup →
    ((genList parentUrl urls ts).2 = urls ++ aUrlsList (genList parentUrl urls ts).1 ∧
      ((genList parentUrl urls ts).2).Nodup)
  | [], parentUrl, urls, _, hnd => by
    simp [genList, aUrlsList, hnd]
  | t :: ts, parentUrl, urls, hok, hnd => by
    have hok₁ : ∀ ti ∈ collectTitles t, slugOkP ti := by
      intro ti hti
      exact hok ti (by simp [collectTitlesList]; left; exact hti)
    have hok₂ : ∀ ti ∈ collectTitlesList ts, slugOkP ti := by
      intro ti hti
      exact hok ti (by simp [collectTitlesList]; right; exact hti)
    have h₁ := genPage_spec t parentUrl urls hok₁ hnd
    have h₂ := genList_spec ts parentUrl (genPage parentUrl urls t).2 hok₂ h₁.2
    constructor
    · simp only [genList, aUrlsList]
      rw [h₂.1, h₁.1]
      simp
    · simp only [genList]
      exact h₂.2

end

/-- Claim C1 (confirmed): after `generate_urls` runs over the whole tree
from the root, the `urls` accumulator is exactly the pre-order list of all
assigned page urls and is duplicate-free — every page has a url and all
urls are pairwise distinct; and the collision loop always terminates with a
candidate outside the accumulator, of the form slug plus finitely many
appended underscores (each retry strictly lengthens the slug).  Titles are
assumed to slugify without colon or slash characters, so that `urljoin`
appends the slug to the parent directory. -/
theorem c1_generate_urls_unique (siteUrl : String) (t : UTree)
    (hok : ∀ ti ∈ collectTitles t, slugOkP ti) :
    ((genRoot siteUrl t).2).Nodup ∧
      (genRoot siteUrl t).2 = aUrls (genRoot siteUrl t).1 ∧
      ∀ (urls : List String) (base f : String), base.data.getLast? = some '/' →
        ':' ∉ f.data → '/' ∉ f.data →
        genName urls base f ∉ urls ∧
          ∃ k : Nat, genName urls base f = base ++ f ++ String.mk (List.replicate k '_') := by
  obtain ⟨title, children⟩ := t
  have hokk : ∀ ti ∈ collectTitlesList children, slugOkP ti := by
    intro ti hti
    exact hok ti (by simp [collectTitles]; right; exact hti)
  have hrec := genList_spec children siteUrl [siteUrl] hokk (List.nodup_singleton _)
  refine ⟨?_, ?_, ?_⟩
  · simp only [genRoot]
    exact hrec.2
  · simp only [genRoot, aUrls]
    rw [hrec.1]
    simp
  · intro urls base f hb hc hs
    exact genName_spec urls base f hb hc hs

theorem c1_generate_urls_unique_witness :
    (genRoot "https://s.e"
        (UTree.node "Home" [UTree.node "My Notes" [], UTree.node "My Notes" []])).2 =
      ["https://s.e", "https://s.e/My_Notes", "https://s.e/My_Notes_"] ∧
      ((genRoot "https://s.e"
          (UTree.node "Home" [UTree.node "My Notes" [], UTree.node "My Notes" []])).2).Nodup :=
  ⟨rfl,
   (c1_generate_urls_unique "https://s.e"
      (UTree.node "Home" [UTree.node "My Notes" [], UTree.node "My Notes" []])
      (by decide)).1⟩

/-! ## markdown_parser block converter (source lines 8-241)

The per-kind block formatters, the information collector and
`block_convertor`.  Dictionary fields absent from a payload are `none`;
formatter accesses that would raise `KeyError` in Python on malformed
payloads (which the API never produces) are totalized with `""`/`false`.
The side effect of appending discovered urls to the page's `files` list is
returned explicitly as the second component. -/

namespace MdBlocks

/-- The "information" record passed to the per-kind formatters. -/
structure Information where
  text : Option String
  icon : Option String
  checked : Option Bool
  url : Option String
  caption : Option String
  language : Option String
  cells : List (List RichTextSpan)

def emptyInformation : Information := ⟨none, none, none, none, none, none, []⟩

def paragraph (information : Information) : String := information.text.getD ""

def heading_1 (information : Information) : String := "# " ++ information.text.getD ""

def heading_2 (information : Information) : String := "## " ++ information.text.getD ""

def heading_3 (information : Information) : String := "### " ++ information.text.getD ""

def callout (information : Information) : String :=
  information.icon.getD "" ++ " " ++ information.text.getD ""

def quote (information : Information) : String := "> " ++ information.text.getD ""

def bulleted_list_item (information : Information) : String :=
  "* " ++ information.text.getD ""

def numbered_list_item (information : Information) : String :=
  "1. " ++ information.text.getD ""

def to_do (information : Information) : String :=
  "- " ++ (if information.checked.getD false then "[x]" else "[ ]") ++ " " ++
    information.text.getD ""

def code (information : Information) : String :=
  "```" ++ pyReplace (information.language.getD "") " " "_" ++ "\n" ++
    information.text.getD "" ++ "\n```"

def embed (information : Information) : String :=
  "<p><div class=\"res_emb_block\">\n<iframe width=\"640\" height=\"480\" src=\"" ++
    information.url.getD "" ++
    "\" frameborder=\"0\" allowfullscreen></iframe>\n</div></p>"

def image (information : Information) : String :=
  if truthyStr information.caption then
    "![" ++ information.caption.getD "" ++ "](" ++ information.url.getD "" ++ ")"
  else "![](" ++ information.url.getD "" ++ ")"

def file (information : Information) : String :=
  let filename := information.url.getD ""
  let clean_url := pyUrljoin filename (urlparsePath filename)
  "[📎 " ++ pathName clean_url ++ "](" ++ filename ++ ")"

def bookmark (information : Information) : String :=
  if truthyStr information.caption then
    "![" ++ information.caption.getD "" ++ "](" ++ information.url.getD "" ++ ")"
  else "![](" ++ information.url.getD "" ++ ")"

def equation (information : Information) : String :=
  "$$ " ++ information.text.getD "" ++ " $$"

def divider (_information : Information) : String := "---"

def blank : String := "<br/>"

def table_row (information : Information) : List String :=
  information.cells.map MdRich.richtext_convertor

def video (information : Information) : String :=
  "<p><div class=\"res_emb_block\">\n<iframe width=\"640\" height=\"480\" src=\"" ++
    information.url.getD "" ++
    "\" frameborder=\"0\" allowfullscreen></iframe>\n</div></p>"

/-- The keys of `block_type_map` in source order. -/
def blockTypeKeys : List String :=
  ["paragraph", "heading_1", "heading_2", "heading_3", "callout", "toggle", "quote",
   "bulleted_list_item", "numbered_list_item", "to_do", "code", "embed", "image",
   "bookmark", "equation", "divider", "file", "table_row", "video"]

/-- Dispatch through `block_type_map`.  A `table_row` block reaching the
generic string path would raise `TypeError` in Python (list concatenated
with a string); it is unreachable for well-formed data (table rows occur
only as table children) and modelled as plain concatenation. -/
def blockFormat (btype : String) (information : Information) : String :=
  if btype == "paragraph" then paragraph information
  else if btype == "heading_1" then heading_1 information
  else if btype == "heading_2" then heading_2 information
  else if btype == "heading_3" then heading_3 information
  else if btype == "callout" then callout information
  else if btype == "toggle" then bulleted_list_item information
  else if btype == "quote" then quote information
  else if btype == "bulleted_list_item" then bulleted_list_item information
  else if btype == "numbered_list_item" then numbered_list_item information
  else if btype == "to_do" then to_do information
  else if btype == "code" then code information
  else if btype == "embed" then embed information
  else if btype == "image" then image information
  else if btype == "bookmark" then bookmark information
  else if btype == "equation" then equation information
  else if btype == "divider" then divider information
  else if btype == "file" then file information
  else if btype == "table_row" then String.join (table_row information)
  else if btype == "video" then video information
  else ""

end MdBlocks

/-- The payload under `block[block_type]`, with `none` for absent keys.
`icon_emoji` models `payload["icon"]["emoji"]`; `external_url` the url of an
`external` file object; `file_url` the url of an internal `file` object. -/
structure BlockPayload where
  text : Option (List RichTextSpan)
  icon_emoji : Option String
  checked : Option Bool
  expression : Option String
  url : Option String
  caption : Option (List RichTextSpan)
  external_url : Option String
  language : Option String
  file_url : Option String
  cells : Option (List (List RichTextSpan))
  dont_download : Bool

/-- `markdown_parser.information_collector`, in source key order; later url
sources overwrite earlier ones, and every url not marked `dont_download` is
appended to the returned files list. -/
def information_collector (payload : BlockPayload) : MdBlocks.Information × List String :=
  let info := MdBlocks.emptyInformation
  let info :=
    match payload.text with
    | some t => { info with text := some (MdRich.richtext_convertor t) }
    | none => info
  let info :=
    match payload.icon_emoji with
    | some e => { info with icon := some e }
    | none => info
  let info :=
    match payload.checked with
    | some b => { info with checked := some b }
    | none => info
  let info :=
    match payload.expression with
    | some e => { info with text := some e }
    | none => info
  let acc : List String := []
  let r :=
    match payload.url with
    | some u => ({ info with url := some u }, if payload.dont_download then acc else acc ++ [u])
    | none => (info, acc)
  let info := r.1
  let acc := r.2
  let info :=
    match payload.caption with
    | some c => { info with caption := some (MdRich.richtext_convertor c) }
    | none => info
  let r :=
    match payload.external_url with
    | some u => ({ info with url := some u }, if payload.dont_download then acc else acc ++ [u])
    | none => (info, acc)
  let info := r.1
  let acc := r.2
  let info :=
    match payload.language with
    | some l => { info with language := some l }
    | none => info
  let r :=
    match payload.file_url with
    | some u => ({ info with url := some u }, if payload.dont_download then acc else acc ++ [u])
    | none => (info, acc)
  let info := r.1
  let acc := r.2
  let info :=
    match payload.cells with
    | some cs => { info with cells := cs }
    | none => info
  (info, acc)

/-- The already-assigned fields of a referenced page, read by the reference
branch of `block_convertor`. -/
structure PageRef where
  title : String
  url : String
  emoji : Option String
  icon : Option String

/-- One content block: its `type`, `has_children` flag, `id`, payload and
nested children. -/
inductive Block where
  | mk (btype : String) (has_children : Bool) (id : String) (payload : BlockPayload)
      (children : List Block)

/-- The empty-paragraph special case test: `not block[block_type]["text"]`.
A missing text key (never produced by the API for paragraphs) is treated as
falsy. -/
def paragraphTextEmpty (payload : BlockPayload) : Bool :=
  match payload.text with
  | some l => l.isEmpty
  | none => true

def tabs (depth : Nat) : String := String.mk (List.replicate depth '\t')

/-- Python `s.rstrip(chr(10))`. -/
def pyRstripNl (s : String) : String := ⟨(s.data.reverse.dropWhile (· == '\n')).reverse⟩

mutual

/-- `markdown_parser.block_convertor`: returns the markdown fragment and the
urls appended to the page's files list.  `pages` resolves the reference
branch (title/url/emoji/icon of already-processed pages). -/
def block_convertor (pages : String → PageRef) : Block → Nat → String × List String
  | .mk btype has_children id payload children, depth =>
    if btype == "paragraph" && !has_children && paragraphTextEmpty payload then
      (MdBlocks.blank ++ "\n\n", [])
    else if btype == "child_page" || btype == "child_database" || btype == "db_entry" then
      let pr := pages id
      let ob := pr.title ++ "](" ++ pr.url ++ ")\n\n"
      let ob :=
        if truthyStr pr.emoji then "[" ++ pr.emoji.getD "" ++ " " ++ ob
        else if truthyStr pr.icon then
          "[<span class=\"miniicon\"> <img src=\"" ++ pr.icon.getD "" ++ "\"></span> " ++ ob
        else "[" ++ ob
      (ob, [])
    else
      let pl :=
        if btype == "embed" || btype == "video" then { payload with dont_download := true }
        else payload
      let ic := information_collector pl
      let r :=
        if btype ∈ MdBlocks.blockTypeKeys then (MdBlocks.blockFormat btype ic.1 ++ "\n\n", ic.2)
        else ("[" ++ btype ++ " is not supported]\n\n", ([] : List String))
      let ob := r.1
      let fs := r.2
      let ob :=
        if btype == "code" then
          pyReplace (pyRstripNl ob) "\n" ("\n" ++ tabs depth) ++ "\n\n"
        else ob
      if has_children then
        if btype == "table" then
          let rows := children.map (fun cb =>
            match cb with
            | .mk _ _ _ cpl _ => MdBlocks.table_row (information_collector cpl).1)
          let rowFs := children.foldr (fun cb acc =>
            match cb with
            | .mk _ _ _ cpl _ => (information_collector cpl).2 ++ acc) []
          let ob₂ :=
            match rows with
            | [] => ob
            | v₀ :: rest =>
              " | " ++ String.intercalate " | " v₀ ++ " | " ++ "\n" ++
                " | " ++ String.intercalate " | " (v₀.map (fun _ => "----")) ++ " | " ++ "\n" ++
                String.join (rest.map (fun v => " | " ++ String.intercalate " | " v ++ " | " ++ "\n"))
          (ob₂ ++ "\n", fs ++ rowFs)
        else
          let rc := block_children pages children (depth + 1)
          (ob ++ rc.1, fs ++ rc.2)
      else (ob, fs)

/-- The `for block in child_blocks` loop: each child fragment is prefixed
with depth-many tabs. -/
def block_children (pages : String → PageRef) : List Block → Nat → String × List String
  | [], _ => ("", [])
  | b :: bs, depth =>
    let r₁ := block_convertor pages b depth
    let r₂ := block_children pages bs depth
    (tabs depth ++ r₁.1 ++ r₂.1, r₁.2 ++ r₂.2)

end

/-- Claim C9 (counterexample): a `table` block is neither a reference block
nor a key of `block_type_map`, so the unsupported placeholder is first
assigned — but when the block has children, the table branch then overwrites
the outcome with the rendered markdown table, and no placeholder naming the
type survives in the output. -/
theorem c9_table_counterexample :
    (block_convertor (fun _ => ⟨"", "", none, none⟩)
        (.mk "table" true "" ⟨none, none, none, none, none, none, none, none, none, none, false⟩
          [.mk "table_row" false ""
            ⟨none, none, none, none, none, none, none, none, none, some [[]], false⟩ []]) 0).1 =
      " |  | \n | ---- | \n\n" ∧
      ("table" ∉ (["child_page", "child_database", "db_entry"] : List String)) ∧
      ("table" ∉ MdBlocks.blockTypeKeys) ∧
      pyIn "is not supported" " |  | \n | ---- | \n\n" = false :=
  ⟨rfl, by decide, by decide, by decide⟩

/-- Claim C9 (amended): for every block whose type is not a reference block,
not a key of the block-kind dispatch table, and not a `table` block with
children (whose outcome is overwritten by the rendered table), the converter
emits a fragment beginning with the visible placeholder naming the
unsupported type, and the fragment is never empty. -/
theorem c9_unsupported_placeholder (pages : String → PageRef) (btype : String)
    (hc : Bool) (id : String) (payload : BlockPayload) (children : List Block) (depth : Nat)
    (h₁ : btype ∉ (["child_page", "child_database", "db_entry"] : List String))
    (h₂ : btype ∉ MdBlocks.blockTypeKeys)
    (h₃ : ¬(btype = "table" ∧ hc = true)) :
    ∃ rest, (block_convertor pages (.mk btype hc id payload children) depth).1 =
        "[" ++ btype ++ " is not supported]\n\n" ++ rest ∧
      (block_convertor pages (.mk btype hc id payload children) depth).1 ≠ "" := by
  have hpar : btype ≠ "paragraph" := fun h => h₂ (by rw [h]; decide)
  have hcp : btype ≠ "child_page" := fun h => h₁ (by rw [h]; decide)
  have hcd : btype ≠ "child_database" := fun h => h₁ (by rw [h]; decide)
  have hdbe : btype ≠ "db_entry" := fun h => h₁ (by rw [h]; decide)
  have hcode : btype ≠ "code" := fun h => h₂ (by rw [h]; decide)
  have hne : ∀ t : String, "[" ++ btype ++ " is not supported]\n\n" ++ t ≠ "" := by
    intro t heq
    have hd := congrArg String.data heq
    simp [String.data_append] at hd
  simp only [block_convertor]
  rw [if_neg (by simp [hpar])]
  rw [if_neg (by simp [hcp, hcd, hdbe])]
  simp only [if_neg h₂, beq_iff_eq, if_neg hcode]
  set ph := "[" ++ btype ++ " is not supported]\n\n" with hph
  cases hc with
  | false =>
    simp only [Bool.false_eq_true, if_false]
    refine ⟨"", by rw [String.append_empty], ?_⟩
    rw [← String.append_empty ph]
    exact hne ""
  | true =>
    have htab : btype ≠ "table" := fun h => h₃ ⟨h, rfl⟩
    simp only [if_pos rfl, if_neg htab]
    exact ⟨(block_children pages children (depth + 1)).1, rfl, hne _⟩

theorem c9_unsupported_placeholder_witness :
    ∃ rest, (block_convertor (fun _ => ⟨"", "", none, none⟩)
        (.mk "synced_block" false ""
          ⟨none, none, none, none, none, none, none, none, none, none, false⟩ []) 0).1 =
        "[" ++ "synced_block" ++ " is not supported]\n\n" ++ rest ∧
      (block_convertor (fun _ => ⟨"", "", none, none⟩)
          (.mk "synced_block" false ""
            ⟨none, none, none, none, none, none, none, none, none, none, false⟩ []) 0).1 ≠ "" :=
  c9_unsupported_placeholder (fun _ => ⟨"", "", none, none⟩) "synced_block" false ""
    ⟨none, none, none, none, none, none, none, none, none, none, false⟩ [] 0
    (by decide) (by decide) (by simp)

/-! ## structuring.sorting_page_by_year (source lines 471-482)

The site-wide year index: collect the pages carrying a date, parse the
dates, sort descending (stable, `reverse=True`), group consecutive runs by
the year field with `itertools.groupby`, and build an insertion-ordered dict
whose assignment `d[year] = []` resets an existing key in place — so a year
recurring in a later run overwrites the earlier bucket. -/

/-- `itertools.groupby`: maximal consecutive runs of equal key. -/
def groupRuns (key : α → Nat) : List α → List (Nat × List α)
  | [] => []
  | x :: xs =>
    match groupRuns key xs with
    | [] => [(key x, [x])]
    | (k, g) :: rest =>
      if key x = k then (key x, x :: g) :: rest
      else (key x, [x]) :: (k, g) :: rest

/-- Python dict assignment `d[k] = v`: replace in place when the key exists,
else append. -/
def upsert (d : List (Nat × List String)) (k : Nat) (v : List String) :
    List (Nat × List String) :=
  match d with
  | [] => [(k, v)]
  | (k₂, v₂) :: rest => if k₂ = k then (k, v) :: rest else (k₂, v₂) :: upsert rest k v

/-- The `(id, date-string)` pairs of the pages carrying a date, in map
order: the filter of the dict comprehension. -/
def datedStr (m : SiteMap) : List (String × String) :=
  m.filterMap (fun kv => kv.2.date.map (fun ds => (kv.1, ds)))

/-- `{k: isoparse(v["date"]) ...}`: parse every date, failing (Python
raises) when any date does not parse. -/
def parseDated : List (String × String) → Option (List (String × PyDateTime))
  | [] => some []
  | (id, ds) :: rest =>
    match isoparse ds, parseDated rest with
    | some dt, some l => some ((id, dt) :: l)
    | _, _ => none

/-- The comparison of `sorted(..., key=lambda item: item[1], reverse=True)`:
stable descending by the parsed datetime. -/
def revDtLe (a b : String × PyDateTime) : Bool := pyDtLeB b.2 a.2

/-- `structuring.sorting_page_by_year`, returning the `sorted_id_by_year`
insertion-ordered dict. -/
def sorting_page_by_year (m : SiteMap) : Option (List (Nat × List String)) :=
  match parseDated (datedStr m) with
  | none => none
  | some dated =>
    let sorted_pages := pySorted revDtLe dated
    let runs := groupRuns (fun kv => kv.2.year) sorted_pages
    some (runs.foldl (fun d kr => upsert d kr.1 (kr.2.map Prod.fst)) [])

/-- Claim C7 (counterexample): with mixed UTC offsets the descending
instant order can interleave local years, and `groupby` then produces the
same year twice; the dict assignment resets the earlier bucket, dropping
its entities from the index.  Entity `a` (2022-06-01T00:00Z, the latest
instant) carries a date but appears in no year bucket: the index maps 2022
to `["c"]` only. -/
theorem c7_year_index_counterexample :
    sorting_page_by_year
        [("a", ⟨"page", [], some "2022-06-01T00:00:00+00:00"⟩),
         ("b", ⟨"page", [], some "2021-12-31T20:00:00+00:00"⟩),
         ("c", ⟨"page", [], some "2022-01-01T00:30:00+09:00"⟩)] =
      some [(2022, ["c"]), (2021, ["b"])] ∧
      (List.lookup "a"
          [("a", (⟨"page", [], some "2022-06-01T00:00:00+00:00"⟩ : SPage)),
           ("b", ⟨"page", [], some "2021-12-31T20:00:00+00:00"⟩),
           ("c", ⟨"page", [], some "2022-01-01T00:30:00+09:00"⟩)]).isSome ∧
      "a" ∉ (([(2022, ["c"]), (2021, ["b"])] : List (Nat × List String)).map Prod.snd).flatten :=
  ⟨rfl, rfl, by decide⟩



theorem isoTimeL_bounds (y mo d : Nat) (s : List Char) (dt : PyDateTime)
    (hmo : mo ≤ 12) (hd : d ≤ 31) (h : isoTimeL y mo d s = some dt) :
    dt.month ≤ 12 ∧ dt.day ≤ 31 ∧ dt.hour ≤ 23 ∧ dt.minute ≤ 59 ∧ dt.second ≤ 59 ∧
      dt.millis ≤ 999 := by
  unfold isoTimeL at h
  split at h
  · exact Option.noConfusion h
  · split at h
    · exact Option.noConfusion h
    · split at h
      · exact Option.noConfusion h
      · split at h
        · exact Option.noConfusion h
        · split at h
          · exact Option.noConfusion h
          · split at h
            · exact Option.noConfusion h
            · split at h
              · exact Option.noConfusion h
              · split at h
                · rename_i hcond
                  injection h with h
                  subst h
                  exact ⟨hmo, hd, hcond.1, hcond.2.1, hcond.2.2.1, hcond.2.2.2⟩
                · exact Option.noConfusion h

theorem isoparseL_bounds (s : List Char) (dt : PyDateTime) (h : isoparseL s = some dt) :
    dt.month ≤ 12 ∧ dt.day ≤ 31 ∧ dt.hour ≤ 23 ∧ dt.minute ≤ 59 ∧ dt.second ≤ 59 ∧
      dt.millis ≤ 999 := by
  unfold isoparseL at h
  split at h
  · exact Option.noConfusion h
  · split at h
    · exact Option.noConfusion h
    · split at h
      · exact Option.noConfusion h
      · split at h
        · exact Option.noConfusion h
        · split at h
          · exact Option.noConfusion h
          · split at h
            · rename_i hcond
              split at h
              · injection h with h
                subst h
                exact ⟨hcond.2.1, hcond.2.2.2, Nat.zero_le 23, Nat.zero_le 59, Nat.zero_le 59, Nat.zero_le 999⟩
              · exact isoTimeL_bounds _ _ _ _ _ hcond.2.1 hcond.2.2.2 h
              · exact Option.noConfusion h
            · exact Option.noConfusion h



theorem parseDated_sound (l : List (String × String)) (d : List (String × PyDateTime))
    (h : parseDated l = some d) :
    d.map Prod.fst = l.map Prod.fst ∧
      ∀ e ∈ d, ∃ ds, (e.1, ds) ∈ l ∧ isoparse ds = some e.2 := by
  induction l generalizing d with
  | nil =>
    simp only [parseDated, Option.some.injEq] at h
    subst h
    exact ⟨rfl, by simp⟩
  | cons x xs ih =>
    obtain ⟨id, ds⟩ := x
    simp only [parseDated] at h
    split at h
    · rename_i dt rest hdt hrest
      injection h with h
      subst h
      obtain ⟨ih1, ih2⟩ := ih rest hrest
      constructor
      · simp [ih1]
      · intro e he
        rcases List.mem_cons.mp he with rfl | he₂
        · exact ⟨ds, List.mem_cons_self _ _, hdt⟩
        · obtain ⟨ds₂, hmem, hiso⟩ := ih2 e he₂
          exact ⟨ds₂, List.mem_cons_of_mem _ hmem, hiso⟩
    · exact Option.noConfusion h

/-- The effective comparison of the reverse sort once every parsed date is
naive: descending by the lexicographic field key. -/
def naiveDescLe (a b : String × PyDateTime) : Bool :=
  decide (naiveKey b.2 ≤ naiveKey a.2)

theorem naiveDescLe_total (a b : String × PyDateTime) :
    naiveDescLe a b || naiveDescLe b a := by
  simp only [naiveDescLe, Bool.or_eq_true, decide_eq_true_eq]
  omega

theorem naiveDescLe_trans (a b c : String × PyDateTime)
    (h₁ : naiveDescLe a b) (h₂ : naiveDescLe b c) : naiveDescLe a c := by
  simp only [naiveDescLe, decide_eq_true_eq] at h₁ h₂ ⊢
  exact Nat.le_trans h₂ h₁

theorem insertStable_congr (r s : α → α → Bool) (x : α) :
    ∀ l : List α, (∀ b ∈ l, r x b = s x b) → insertStable r x l = insertStable s x l := by
  intro l
  induction l with
  | nil => intro _; rfl
  | cons y ys ih =>
    intro hb
    simp only [insertStable]
    rw [hb y (List.mem_cons_self _ _)]
    split
    · rfl
    · rw [ih (fun b h => hb b (List.mem_cons_of_mem _ h))]

theorem pySorted_congr (r s : α → α → Bool) :
    ∀ l : List α, (∀ a ∈ l, ∀ b ∈ l, r a b = s a b) → pySorted r l = pySorted s l := by
  intro l
  induction l with
  | nil => intro _; rfl
  | cons x xs ih =>
    intro hab
    simp only [pySorted]
    rw [ih (fun a ha b hb =>
      hab a (List.mem_cons_of_mem _ ha) b (List.mem_cons_of_mem _ hb))]
    exact insertStable_congr r s x _ (fun b hb =>
      hab x (List.mem_cons_self _ _) b
        (List.mem_cons_of_mem _ ((pySorted_perm s xs).mem_iff.mp hb)))

theorem naiveKey_year_le (a b : PyDateTime)
    (hb : b.month ≤ 12 ∧ b.day ≤ 31 ∧ b.hour ≤ 23 ∧ b.minute ≤ 59 ∧ b.second ≤ 59 ∧
      b.millis ≤ 999)
    (h : naiveKey a ≤ naiveKey b) : a.year ≤ b.year := by
  unfold naiveKey at h
  obtain ⟨h1, h2, h3, h4, h5, h6⟩ := hb
  nlinarith [Nat.zero_le a.month]



theorem groupRuns_flatten (key : α → Nat) :
    ∀ l : List α, ((groupRuns key l).map Prod.snd).flatten = l := by
  intro l
  induction l with
  | nil => rfl
  | cons x xs ih =>
    simp only [groupRuns]
    split
    · rename_i heq
      rw [heq] at ih
      simp only [List.map_nil, List.flatten_nil] at ih
      exact congrArg (List.cons x) ih
    · rename_i k g rest heq
      rw [heq] at ih
      by_cases hk : key x = k
      · rw [if_pos hk]
        simpa using ih
      · rw [if_neg hk]
        simpa using ih

theorem groupRuns_key (key : α → Nat) :
    ∀ l : List α, ∀ kg ∈ groupRuns key l, ∀ x ∈ kg.2, key x = kg.1 := by
  intro l
  induction l with
  | nil => intro kg h; simp [groupRuns] at h
  | cons x xs ih =>
    intro kg hkg y hy
    simp only [groupRuns] at hkg
    split at hkg
    · rcases List.mem_singleton.mp hkg with rfl
      rcases List.mem_singleton.mp hy with rfl
      rfl
    · rename_i k g rest heq
      by_cases hk : key x = k
      · rw [if_pos hk] at hkg
        rcases List.mem_cons.mp hkg with rfl | h₂
        · rcases List.mem_cons.mp hy with rfl | h₃
          · rfl
          · exact (ih (k, g) (heq.symm ▸ List.mem_cons_self _ _) y h₃).trans hk.symm
        · exact ih kg (heq.symm ▸ List.mem_cons_of_mem _ h₂) y hy
      · rw [if_neg hk] at hkg
        rcases List.mem_cons.mp hkg with rfl | h₂
        · rcases List.mem_singleton.mp hy with rfl
          rfl
        · exact ih kg (heq.symm ▸ h₂) y hy

theorem groupRuns_ne_nil (key : α → Nat) :
    ∀ l : List α, ∀ kg ∈ groupRuns key l, kg.2 ≠ [] := by
  intro l
  induction l with
  | nil => intro kg h; simp [groupRuns] at h
  | cons x xs ih =>
    intro kg hkg
    simp only [groupRuns] at hkg
    split at hkg
    · rcases List.mem_singleton.mp hkg with rfl
      simp
    · rename_i k g rest heq
      by_cases hk : key x = k
      · rw [if_pos hk] at hkg
        rcases List.mem_cons.mp hkg with rfl | h₂
        · simp
        · exact ih kg (heq.symm ▸ List.mem_cons_of_mem _ h₂)
      · rw [if_neg hk] at hkg
        rcases List.mem_cons.mp hkg with rfl | h₂
        · simp
        · exact ih kg (heq.symm ▸ h₂)

theorem groupRuns_sublist (key : α → Nat) :
    ∀ l : List α, ∀ kg ∈ groupRuns key l, kg.2.Sublist l := by
  intro l
  induction l with
  | nil => intro kg h; simp [groupRuns] at h
  | cons x xs ih =>
    intro kg hkg
    simp only [groupRuns] at hkg
    split at hkg
    · rcases List.mem_singleton.mp hkg with rfl
      simp
    · rename_i k g rest heq
      by_cases hk : key x = k
      · rw [if_pos hk] at hkg
        rcases List.mem_cons.mp hkg with rfl | h₂
        · exact List.Sublist.cons₂ x (ih (k, g) (heq.symm ▸ List.mem_cons_self _ _))
        · exact List.Sublist.cons x (ih kg (heq.symm ▸ List.mem_cons_of_mem _ h₂))
      · rw [if_neg hk] at hkg
        rcases List.mem_cons.mp hkg with rfl | h₂
        · simp
        · exact List.Sublist.cons x (ih kg (heq.symm ▸ h₂))

theorem groupRuns_cons_shape (key : α → Nat) (x : α) (xs : List α) :
    ∃ g rest, groupRuns key (x :: xs) = (key x, g) :: rest := by
  simp only [groupRuns]
  split
  · exact ⟨[x], [], rfl⟩
  · rename_i k g rest heq
    by_cases hk : key x = k
    · rw [if_pos hk]
      exact ⟨x :: g, rest, rfl⟩
    · rw [if_neg hk]
      exact ⟨[x], (k, g) :: rest, rfl⟩

theorem groupRuns_keys_desc (key : α → Nat) :
    ∀ l : List α, l.Pairwise (fun a b => key b ≤ key a) →
      (groupRuns key l).Pairwise (fun a b => b.1 < a.1) := by
  intro l
  induction l with
  | nil => intro _; exact List.Pairwise.nil
  | cons x xs ih =>
    intro hp
    rw [List.pairwise_cons] at hp
    obtain ⟨hx, hxs⟩ := hp
    have ihx := ih hxs
    simp only [groupRuns]
    split
    · exact List.pairwise_singleton _ _
    · rename_i k g rest heq
      rw [heq] at ihx
      have hxsne : xs ≠ [] := by
        intro he
        rw [he] at heq
        exact absurd heq (by simp [groupRuns])
      obtain ⟨y, ys, rfl⟩ := List.exists_cons_of_ne_nil hxsne
      obtain ⟨g₂, rest₂, hshape⟩ := groupRuns_cons_shape key y ys
      rw [hshape] at heq
      injection heq with heqh heqt
      have hky : key y = k := congrArg Prod.fst heqh
      have hyx : key y ≤ key x := hx y (List.mem_cons_self _ _)
      by_cases hk : key x = k
      · rw [if_pos hk]
        rw [List.pairwise_cons] at ihx ⊢
        obtain ⟨ih1, ih2⟩ := ihx
        exact ⟨fun b hb => by rw [hk]; exact ih1 b hb, ih2⟩
      · rw [if_neg hk]
        rw [List.pairwise_cons]
        refine ⟨?_, ihx⟩
        intro b hb
        have hklt : k < key x :=
          Nat.lt_of_le_of_ne (hky ▸ hyx) (fun he => hk he.symm)
        rcases List.mem_cons.mp hb with rfl | hb₂
        · exact hklt
        · rw [List.pairwise_cons] at ihx
          exact Nat.lt_trans (ihx.1 b hb₂) hklt



theorem upsert_of_not_mem (d : List (Nat × List String)) (k : Nat) (v : List String)
    (h : k ∉ d.map Prod.fst) : upsert d k v = d ++ [(k, v)] := by
  induction d with
  | nil => rfl
  | cons kv rest ih =>
    obtain ⟨k₂, v₂⟩ := kv
    simp only [List.map_cons, List.mem_cons] at h
    push_neg at h
    simp only [upsert]
    rw [if_neg (fun he => h.1 he.symm), ih h.2]
    rfl

theorem foldl_upsert (runs : List (Nat × List (String × PyDateTime))) :
    ∀ init : List (Nat × List String),
      (runs.map Prod.fst).Nodup →
      (∀ k ∈ runs.map Prod.fst, k ∉ init.map Prod.fst) →
      runs.foldl (fun d kr => upsert d kr.1 (kr.2.map Prod.fst)) init =
        init ++ runs.map (fun kg => (kg.1, kg.2.map Prod.fst)) := by
  induction runs with
  | nil => intro init _ _; simp
  | cons kr rest ih =>
    intro init hnd hdis
    simp only [List.map_cons, List.nodup_cons] at hnd
    simp only [List.foldl_cons]
    rw [upsert_of_not_mem init kr.1 (kr.2.map Prod.fst)
      (hdis kr.1 (by simp))]
    rw [ih (init ++ [(kr.1, kr.2.map Prod.fst)]) hnd.2 ?_]
    · simp
    · intro k hk
      simp only [List.map_append, List.mem_append]
      push_neg
      refine ⟨hdis k (List.mem_cons_of_mem _ hk), ?_⟩
      simp only [List.map_cons, List.map_nil, List.mem_singleton]
      intro he
      exact hnd.1 (he ▸ hk)

theorem nodup_keys_of_desc (runs : List (Nat × List (String × PyDateTime)))
    (h : runs.Pairwise (fun a b => b.1 < a.1)) : (runs.map Prod.fst).Nodup := by
  have h₂ : (runs.map Prod.fst).Pairwise (fun a b : Nat => b < a) :=
    List.pairwise_map.mpr h
  exact h₂.imp (fun hlt => (Nat.ne_of_lt hlt).symm)



/-- Claim C7 (amended): when every parsed date is naive (no UTC offset), the
year index collects exactly the entities carrying a date field, its year keys
are pairwise strictly descending — so each year occurs as a key exactly once,
in descending order — and each bucket lists the ids of a run of entities of
exactly that year, in descending (stable) date order.  With mixed UTC offsets
the instant sort can interleave local years; `groupby` then emits one year
twice and the dict assignment resets the earlier bucket, dropping its
entities, so the unamended claim fails. -/
theorem c7_year_index (m : SiteMap) (dated : List (String × PyDateTime))
    (hp : parseDated (datedStr m) = some dated)
    (hnaive : ∀ e ∈ dated, e.2.offset = none) :
    ∃ res, sorting_page_by_year m = some res ∧
      res.Pairwise (fun a b => b.1 < a.1) ∧
      ((res.map Prod.snd).flatten).Perm ((datedStr m).map Prod.fst) ∧
      ∀ kr ∈ res, ∃ g : List (String × PyDateTime),
        kr.2 = g.map Prod.fst ∧ g ≠ [] ∧
        (∀ e ∈ g, e ∈ dated ∧ e.2.year = kr.1) ∧
        g.Pairwise (fun a b => naiveKey b.2 ≤ naiveKey a.2) := by
  obtain ⟨hfst, hsrc⟩ := parseDated_sound _ _ hp
  have hbounds : ∀ e ∈ dated, e.2.month ≤ 12 ∧ e.2.day ≤ 31 ∧ e.2.hour ≤ 23 ∧
      e.2.minute ≤ 59 ∧ e.2.second ≤ 59 ∧ e.2.millis ≤ 999 := by
    intro e he
    obtain ⟨ds, _, hiso⟩ := hsrc e he
    exact isoparseL_bounds ds.data e.2 hiso
  have hcongr : pySorted revDtLe dated = pySorted naiveDescLe dated := by
    apply pySorted_congr
    intro a ha b hb
    simp only [revDtLe, pyDtLeB, naiveDescLe, hnaive a ha, hnaive b hb]
  have hperm : (pySorted revDtLe dated).Perm dated := pySorted_perm revDtLe dated
  have hpair : (pySorted revDtLe dated).Pairwise (fun a b => naiveDescLe a b = true) := by
    rw [hcongr]
    exact pySorted_pairwise naiveDescLe naiveDescLe_total naiveDescLe_trans dated
  have hmem : ∀ e ∈ pySorted revDtLe dated, e ∈ dated := fun e he => hperm.mem_iff.mp he
  have hyear : (pySorted revDtLe dated).Pairwise (fun a b => b.2.year ≤ a.2.year) := by
    refine hpair.imp_of_mem ?_
    intro a b ha hb hab
    simp only [naiveDescLe, decide_eq_true_eq] at hab
    exact naiveKey_year_le b.2 a.2 (hbounds a (hmem a ha)) hab
  have hkeysdesc :=
    groupRuns_keys_desc (fun kv : String × PyDateTime => kv.2.year)
      (pySorted revDtLe dated) hyear
  have hflat :=
    groupRuns_flatten (fun kv : String × PyDateTime => kv.2.year) (pySorted revDtLe dated)
  have hnodup := nodup_keys_of_desc _ hkeysdesc
  have hfold :=
    foldl_upsert (groupRuns (fun kv : String × PyDateTime => kv.2.year)
      (pySorted revDtLe dated)) [] hnodup (by simp)
  refine ⟨(groupRuns (fun kv : String × PyDateTime => kv.2.year)
    (pySorted revDtLe dated)).map (fun kg => (kg.1, kg.2.map Prod.fst)), ?_, ?_, ?_, ?_⟩
  · unfold sorting_page_by_year
    simp only [hp]
    rw [hfold]
    simp
  · exact List.pairwise_map.mpr (hkeysdesc.imp (fun hab => hab))
  · have h₁ : (((groupRuns (fun kv : String × PyDateTime => kv.2.year)
        (pySorted revDtLe dated)).map (fun kg => (kg.1, kg.2.map Prod.fst))).map
          Prod.snd) =
        ((groupRuns (fun kv : String × PyDateTime => kv.2.year)
          (pySorted revDtLe dated)).map Prod.snd).map (List.map Prod.fst) := by
      simp [Function.comp]
    rw [h₁, ← List.map_flatten, hflat, ← hfst]
    exact hperm.map Prod.fst
  · intro kr hkr
    obtain ⟨kg, hkgmem, rfl⟩ := List.mem_map.mp hkr
    refine ⟨kg.2, rfl, groupRuns_ne_nil _ _ kg hkgmem, ?_, ?_⟩
    · intro e he
      exact ⟨hmem e ((groupRuns_sublist _ _ kg hkgmem).subset he),
        groupRuns_key _ _ kg hkgmem e he⟩
    · have h₂ := hpair.sublist (groupRuns_sublist _ _ kg hkgmem)
      exact h₂.imp (fun hab => by simpa [naiveDescLe] using hab)


/-- Three naive-dated pages in years 2021, 2021 and 2022: the scenario of the
claim text. -/
def c7SampleMap : SiteMap :=
  [("p1", ⟨"page", [], some "2021-03-01"⟩),
   ("p2", ⟨"page", [], some "2021-05-01"⟩),
   ("p3", ⟨"page", [], some "2022-01-15"⟩)]

/-- The parsed dates of `c7SampleMap`. -/
def c7SampleDated : List (String × PyDateTime) :=
  [("p1", ⟨2021, 3, 1, 0, 0, 0, 0, none⟩),
   ("p2", ⟨2021, 5, 1, 0, 0, 0, 0, none⟩),
   ("p3", ⟨2022, 1, 15, 0, 0, 0, 0, none⟩)]

theorem c7_year_index_witness :
    parseDated (datedStr c7SampleMap) = some c7SampleDated ∧
    (∀ e ∈ c7SampleDated, e.2.offset = none) ∧
    (∃ res, sorting_page_by_year c7SampleMap = some res ∧
      res.Pairwise (fun a b => b.1 < a.1) ∧
      ((res.map Prod.snd).flatten).Perm ((datedStr c7SampleMap).map Prod.fst) ∧
      ∀ kr ∈ res, ∃ g : List (String × PyDateTime),
        kr.2 = g.map Prod.fst ∧ g ≠ [] ∧
        (∀ e ∈ g, e ∈ c7SampleDated ∧ e.2.year = kr.1) ∧
        g.Pairwise (fun a b => naiveKey b.2 ≤ naiveKey a.2)) :=
  ⟨rfl, by decide, c7_year_index c7SampleMap c7SampleDated rfl (by decide)⟩

end Notion4Ever
